import Mathlib

/-!
A shallow embedding, in Lean 4, of the core of the json-zip-converter
repository: the JSON-to-file-tree builders (`generateFileStructure` in the
FileConverter component and `createFileTree` in the JSON utility module),
the filename sanitizer (`sanitizeFilename`), and the tree utility library
(`countTreeFiles`, `countTreeDirectories`, `getTreeDepth`, `getTreeStats`,
`getFilePaths`, `findNodeByPath`, `sortTree`, `isValidTree`,
`createTreeFromPaths`).

Modelling conventions, used throughout:
* A JavaScript value is a `JSVal`.  JSON numbers appearing in the claims are
  integers, so numbers are carried as `Int`; string contents are Lean
  `String`s (a `String` is definitionally a packed `List Char`).
* A JavaScript object is modelled as its insertion-ordered association list
  of own enumerable properties with pairwise distinct keys.  (JavaScript's
  special enumeration order for integer-like keys is not modelled; none of
  the verified statements depend on enumeration order of integer-like keys.)
* `typeof v === 'object'` holds exactly for objects, arrays and `null`;
  `Array.isArray` distinguishes arrays; truthiness follows JavaScript
  (`null`, `false`, `0`, `""` are falsy).
* Prototype-chain properties (e.g. `"push" in someArray`) are not modelled:
  property access sees own properties only, plus array indices and the
  array `length` property.
-/

namespace JsonZip

inductive JSVal : Type where
  | vNull : JSVal
  | vBool (b : Bool) : JSVal
  | vNum (n : Int) : JSVal
  | vStr (s : String) : JSVal
  | vArr (elems : List JSVal) : JSVal
  | vObj (fields : List (String × JSVal)) : JSVal
deriving Repr

open JSVal

/-- `value && typeof value === 'object' && !Array.isArray(value)`:
the repository's pervasive test for "this node is a directory". -/
def isDirLike : JSVal → Bool
  | vObj _ => true
  | _ => false

/-- `typeof v === 'object' && v !== null`: object or array. -/
def isObjectLike : JSVal → Bool
  | vObj _ => true
  | vArr _ => true
  | _ => false

/-- JavaScript truthiness of a value. -/
def jsTruthy : JSVal → Bool
  | vNull => false
  | vBool b => b
  | vNum n => n != 0
  | vStr s => s != ""
  | vArr _ => true
  | vObj _ => true

/-! ### Decimal rendering of natural numbers

JavaScript renders a non-negative integer index (`` `item_${index}` ``,
`String(n)`) as its usual decimal numeral.  `toDecChars` is a fuel-based
structural implementation (so closed terms reduce); `toDecRec` is the same
function in its natural recurrence form, used for proofs. -/

def decDigit (n : Nat) : Char := Char.ofNat (48 + n)

def toDecGo : Nat → Nat → List Char → List Char
  | 0, n, acc => decDigit n :: acc
  | fuel + 1, n, acc =>
    if n < 10 then decDigit n :: acc
    else toDecGo fuel (n / 10) (decDigit (n % 10) :: acc)

def toDecChars (n : Nat) : List Char := toDecGo n n []

def toDecimal (n : Nat) : String := String.mk (toDecChars n)

def toDecRec (n : Nat) : List Char :=
  if n < 10 then [decDigit n] else toDecRec (n / 10) ++ [decDigit (n % 10)]
termination_by n
decreasing_by
  exact Nat.div_lt_self (by omega) (by omega)

/-! ### JavaScript string coercion and JSON serialization (scalars)

`String(v)` for the values the repository feeds it (always non-object
scalars; the array/object branches are included for totality and follow
`Array.prototype.toString` / `Object.prototype.toString`). -/

def intToChars (n : Int) : List Char :=
  if n < 0 then '-' :: toDecChars n.natAbs else toDecChars n.natAbs

mutual

def jsString : JSVal → String
  | vNull => "null"
  | vBool b => if b then "true" else "false"
  | vNum n => String.mk (intToChars n)
  | vStr s => s
  | vObj _ => "[object Object]"
  | vArr xs => jsStringItems xs

-- `Array.prototype.toString` joins elements with `,`; `null` joins as ``.
def jsStringItems : List JSVal → String
  | [] => ""
  | [x] => jsStringElem x
  | x :: rest => jsStringElem x ++ "," ++ jsStringItems rest

def jsStringElem : JSVal → String
  | vNull => ""
  | vBool b => if b then "true" else "false"
  | vNum n => String.mk (intToChars n)
  | vStr s => s
  | vObj _ => "[object Object]"
  | vArr xs => jsStringItems xs

end

def hexDigit (n : Nat) : Char := if n < 10 then decDigit n else Char.ofNat (87 + n)

/-- JSON string escaping, per `JSON.stringify` (`Char` cannot be a lone
surrogate, so the `\uXXXX` lone-surrogate rule never applies). -/
def jsonEscChar (c : Char) : List Char :=
  if c = '"' then ['\\', '"']
  else if c = '\\' then ['\\', '\\']
  else if c = Char.ofNat 8 then ['\\', 'b']
  else if c = Char.ofNat 9 then ['\\', 't']
  else if c = Char.ofNat 10 then ['\\', 'n']
  else if c = Char.ofNat 12 then ['\\', 'f']
  else if c = Char.ofNat 13 then ['\\', 'r']
  else if c.val.toNat < 32 then
    ['\\', 'u', '0', '0', hexDigit (c.val.toNat / 16), hexDigit (c.val.toNat % 16)]
  else [c]

/-- `JSON.stringify(v, null, 2)` restricted to the scalar values the
repository ever passes it (the surrounding code only calls it on values
with `typeof value !== 'object'` or `value === null`); a 2-space indent
produces no whitespace on scalars.  The unreachable object/array branches
are stubbed with `""`. -/
def jsonStringify2 : JSVal → String
  | vNull => "null"
  | vBool b => if b then "true" else "false"
  | vNum n => String.mk (intToChars n)
  | vStr s => String.mk ('"' :: s.data.flatMap jsonEscChar ++ ['"'])
  | vArr _ => ""
  | vObj _ => ""

/-- UTF-16 length of a string: JavaScript's `String.prototype.length`. -/
def utf16Len (s : String) : Nat :=
  (s.data.map (fun c => if c.val.toNat < 0x10000 then 1 else 2)).sum

/-- `typeof value === 'string' && value.length > 100`. -/
def isLongString : JSVal → Bool
  | vStr s => decide (utf16Len s > 100)
  | _ => false

/-! ### The filename sanitizer (`sanitizeFilename`)

```js
filename.replace(/[<>:"/\\|?*]/g, '_').replace(/\s+/g, '_')
        .replace(/_{2,}/g, '_').trim()
```

Each regex pass is modelled character-exactly.  `\s` and `trim()` use the
same character class (ECMAScript WhiteSpace plus LineTerminator).  Replacing
every maximal run of 2-or-more underscores with one underscore leaves single
underscores alone, which coincides with collapsing every maximal underscore
run to a single underscore; `collUndGo` implements the latter. -/

def isSanSpecial (c : Char) : Bool :=
  c = '<' || c = '>' || c = ':' || c = '"' || c = '/' || c = '\\' ||
  c = '|' || c = '?' || c = '*'

def isJsWs (c : Char) : Bool :=
  let n := c.val.toNat
  n = 0x9 || n = 0xa || n = 0xb || n = 0xc || n = 0xd || n = 0x20 ||
  n = 0xa0 || n = 0x1680 || (0x2000 ≤ n && n ≤ 0x200a) || n = 0x2028 ||
  n = 0x2029 || n = 0x202f || n = 0x205f || n = 0x3000 || n = 0xfeff

def replSpecials (l : List Char) : List Char :=
  l.map (fun c => if isSanSpecial c then '_' else c)

/-- `.replace(/\s+/g, '_')`: the flag records whether we are inside a
whitespace run whose `_` has already been emitted. -/
def collWsGo : Bool → List Char → List Char
  | _, [] => []
  | inRun, c :: rest =>
    if isJsWs c then
      if inRun then collWsGo true rest else '_' :: collWsGo true rest
    else c :: collWsGo false rest

/-- `.replace(/_{2,}/g, '_')` (see the section comment). -/
def collUndGo : Bool → List Char → List Char
  | _, [] => []
  | inRun, c :: rest =>
    if c = '_' then
      if inRun then collUndGo true rest else '_' :: collUndGo true rest
    else c :: collUndGo false rest

def trimWs (l : List Char) : List Char :=
  ((l.dropWhile isJsWs).reverse.dropWhile isJsWs).reverse

def sanitizeFilename (s : String) : String :=
  String.mk (trimWs (collUndGo false (collWsGo false (replSpecials s.data))))

/-! ### Splitting and joining `/`-delimited paths

`s.split('/')` on a single-character separator, modelled on the character
list of the string; `joinChain` is the corresponding join, used as a proof
vocabulary for path manipulation. -/

def splitChars : List Char → List (List Char)
  | [] => [[]]
  | c :: rest =>
    if c = '/' then [] :: splitChars rest
    else
      match splitChars rest with
      | [] => [[c]]
      | g :: gs => (c :: g) :: gs

def splitSlash (s : String) : List String :=
  (splitChars s.data).map String.mk

/-- `/`-join of a nonempty list of segments. -/
def joinChain : List String → String
  | [] => ""
  | [s] => s
  | s :: rest => s ++ "/" ++ joinChain rest

def hasSlash (s : String) : Bool := s.data.contains '/'

/-- `` basePath ? `${basePath}/${key}` : key `` (string truthiness:
nonempty). -/
def pjoin (base k : String) : String := if base = "" then k else base ++ "/" ++ k

/-! ### Tree utilities (`treeUtils` module)

Each operation guards with `!tree || typeof tree !== 'object'` and then
iterates `Object.keys`/`Object.values`; an array passes that guard, its own
enumerable properties being its indices `"0"`, `"1"`, … in order.  The
mutually recursive `…Fields`/`…Items` helpers spell out the
`forEach`-accumulation; sums and maxima are accumulated in the same order
as the source. -/

mutual

def countTreeFiles : JSVal → Nat
  | vObj fields => ctfFields fields
  | vArr xs => ctfItems xs
  | _ => 0

def ctfFields : List (String × JSVal) → Nat
  | [] => 0
  | (_, v) :: rest => (if isDirLike v then countTreeFiles v else 1) + ctfFields rest

def ctfItems : List JSVal → Nat
  | [] => 0
  | x :: rest => (if isDirLike x then countTreeFiles x else 1) + ctfItems rest

end

mutual

def countTreeDirectories : JSVal → Nat
  | vObj fields => ctdFields fields
  | vArr xs => ctdItems xs
  | _ => 0

def ctdFields : List (String × JSVal) → Nat
  | [] => 0
  | (_, v) :: rest => (if isDirLike v then 1 + countTreeDirectories v else 0) + ctdFields rest

def ctdItems : List JSVal → Nat
  | [] => 0
  | x :: rest => (if isDirLike x then 1 + countTreeDirectories x else 0) + ctdItems rest

end

mutual

def getTreeDepth : JSVal → Nat
  | vObj fields => gtdFields fields
  | vArr xs => gtdItems xs
  | _ => 0

def gtdFields : List (String × JSVal) → Nat
  | [] => 0
  | (_, v) :: rest => max (if isDirLike v then 1 + getTreeDepth v else 0) (gtdFields rest)

def gtdItems : List JSVal → Nat
  | [] => 0
  | x :: rest => max (if isDirLike x then 1 + getTreeDepth x else 0) (gtdItems rest)

end

structure TreeStats where
  files : Nat
  directories : Nat
  depth : Nat
  totalNodes : Nat
deriving Repr

/-- `getTreeStats`. -/
def getTreeStats (t : JSVal) : TreeStats :=
  { files := countTreeFiles t
    directories := countTreeDirectories t
    depth := getTreeDepth t
    totalNodes := countTreeFiles t + countTreeDirectories t }

mutual

def getFilePaths : JSVal → String → List String
  | vObj fields, base => gfpFields fields base
  | vArr xs, base => gfpItems xs 0 base
  | _, _ => []

def gfpFields : List (String × JSVal) → String → List String
  | [], _ => []
  | (k, v) :: rest, base =>
    (if isDirLike v then getFilePaths v (pjoin base k) else [pjoin base k]) ++
      gfpFields rest base

def gfpItems : List JSVal → Nat → String → List String
  | [], _, _ => []
  | x :: xs, i, base =>
    (if isDirLike x then getFilePaths x (pjoin base (toDecimal i))
     else [pjoin base (toDecimal i)]) ++ gfpItems xs (i + 1) base

end

/-- Property read `current[part]` / membership `part in current` (own
properties; for an array: its canonical decimal indices and `length`). -/
def arrIndexGo : List JSVal → Nat → String → Option JSVal
  | [], _, _ => none
  | x :: xs, i, part => if toDecimal i == part then some x else arrIndexGo xs (i + 1) part

def jsProp : JSVal → String → Option JSVal
  | vObj fields, k => (fields.find? (fun kv => kv.1 == k)).map (fun kv => kv.2)
  | vArr xs, k => if k == "length" then some (vNum xs.length) else arrIndexGo xs 0 k
  | _, _ => none

/-- The `for (const part of pathParts)` walk of `findNodeByPath`; `none` is
the function's `null`.  The loop guard
`!current || typeof current !== 'object' || !(part in current)` is folded
into `jsTruthy`/`jsProp` (`jsProp` is `none` on non-objects). -/
def walkPath : JSVal → List String → Option JSVal
  | cur, [] => some cur
  | cur, part :: rest =>
    if jsTruthy cur then
      match jsProp cur part with
      | some v => walkPath v rest
      | none => none
    else none

/-- `findNodeByPath`. -/
def findNodeByPath (tree : JSVal) (path : String) : Option JSVal :=
  if jsTruthy tree && path != "" then
    walkPath tree ((splitSlash path).filter (fun part => part.length > 0))
  else none

/-! ### `sortTree`

The source collects the directory keys and the file keys, sorts each key
array with `Array.prototype.sort()` (default comparator: UTF-16
code-unit-lexicographic string order), then rebuilds an object by looking
each sorted key up.  Since an object's keys are pairwise distinct, sorting
the key list and looking keys up coincides with sorting the entry list by
key, and (as sorting compares keys only) with mapping `sortTree` over the
directory entries first and sorting afterwards; the embedding takes that
form.  `cmpChar` compares two characters by their UTF-16 code-unit
sequences; because a one-unit character is never a surrogate, two distinct
characters always differ at the first code unit where both sequences are
defined, so comparing strings character-by-character with `cmpChar` is the
code-unit-lexicographic order. -/

def u16 (c : Char) : List Nat :=
  if c.val.toNat < 0x10000 then [c.val.toNat]
  else [0xd800 + (c.val.toNat - 0x10000) / 0x400, 0xdc00 + (c.val.toNat - 0x10000) % 0x400]

def cmpNatList : List Nat → List Nat → Ordering
  | [], [] => .eq
  | [], _ :: _ => .lt
  | _ :: _, [] => .gt
  | a :: as, b :: bs =>
    if a < b then .lt else if b < a then .gt else cmpNatList as bs

def cmpChar (c d : Char) : Ordering := cmpNatList (u16 c) (u16 d)

def cmpChars : List Char → List Char → Ordering
  | [], [] => .eq
  | [], _ :: _ => .lt
  | _ :: _, [] => .gt
  | c :: cs, d :: ds =>
    match cmpChar c d with
    | .lt => .lt
    | .gt => .gt
    | .eq => cmpChars cs ds

def strLtB (a b : String) : Bool := cmpChars a.data b.data == .lt

def insertByKey (x : String × JSVal) : List (String × JSVal) → List (String × JSVal)
  | [] => [x]
  | y :: ys => if strLtB y.1 x.1 then y :: insertByKey x ys else x :: y :: ys

/-- Stable sort of an entry list by key (models `Array.prototype.sort` on
the key array, which is a stable sort producing the unique sorted
arrangement for distinct keys). -/
def sortByKey : List (String × JSVal) → List (String × JSVal)
  | [] => []
  | x :: rest => insertByKey x (sortByKey rest)

def arrFileEntries : List JSVal → Nat → List (String × JSVal)
  | [], _ => []
  | x :: xs, i =>
    (if isDirLike x then [] else [(toDecimal i, x)]) ++ arrFileEntries xs (i + 1)

mutual

def sortTree : JSVal → JSVal
  | vObj fields =>
    vObj (sortByKey (sortedDirsObj fields) ++
          sortByKey (fields.filter (fun kv => !isDirLike kv.2)))
  | vArr xs =>
    vObj (sortByKey (sortedDirsArr xs 0) ++ sortByKey (arrFileEntries xs 0))
  | t => t

def sortedDirsObj : List (String × JSVal) → List (String × JSVal)
  | [] => []
  | (k, v) :: rest => (if isDirLike v then [(k, sortTree v)] else []) ++ sortedDirsObj rest

def sortedDirsArr : List JSVal → Nat → List (String × JSVal)
  | [], _ => []
  | x :: xs, i =>
    (if isDirLike x then [(toDecimal i, sortTree x)] else []) ++ sortedDirsArr xs (i + 1)

end

mutual

def isValidTree : JSVal → Bool
  | vObj fields => isValidFields fields
  | _ => false

def isValidFields : List (String × JSVal) → Bool
  | [] => true
  | (_, v) :: rest => (if isDirLike v then isValidTree v else true) && isValidFields rest

end

/-! ### `createTreeFromPaths`

The `forEach` over `parts` mutates `current` down the tree; the recursion
`insertParts` rebuilds the spine on the way out, which is equivalent
because the built tree is unaliased whenever `defaultContent` is not an
object (the verified statements assume as much).  A property write on an
array or a primitive (reachable only by descending into a leaf) is a
no-op in the model; in JavaScript such a write attaches an expando
property to the array (invisible to every operation modelled here) or is
silently discarded on a primitive. -/

def upsertFields : List (String × JSVal) → String → JSVal → List (String × JSVal)
  | [], k, v => [(k, v)]
  | (k', v') :: rest, k, v =>
    if k' == k then (k', v) :: rest else (k', v') :: upsertFields rest k v

def jsSet : JSVal → String → JSVal → JSVal
  | vObj fields, k, v => vObj (upsertFields fields k v)
  | t, _, _ => t

def insertParts (c : JSVal) : JSVal → List String → JSVal
  | t, [] => t
  | t, [k] => jsSet t k c
  | t, k :: rest =>
    let child :=
      match jsProp t k with
      | some v => if isObjectLike v then v else vObj []
      | none => vObj []
    jsSet t k (insertParts c child rest)

def parseParts (path : String) : List String :=
  (splitSlash path).filter (fun part => part.length > 0)

def addPath (tree : JSVal) (path : String) (c : JSVal) : JSVal :=
  if path == "" then tree else insertParts c tree (parseParts path)

/-- `createTreeFromPaths` (entries of `paths` that are not strings cannot
be represented and `''` is skipped by `addPath`, matching
`!path || typeof path !== 'string'`). -/
def createTreeFromPaths (paths : List String) (c : JSVal) : JSVal :=
  paths.foldl (fun t p => addPath t p c) (vObj [])

/-! ### `generateFileStructure` (FileConverter component) -/

structure FileEntry where
  path : String
  content : String
deriving Repr

mutual

def processObject : JSVal → String → List FileEntry
  | vArr items, cur => poItems items 0 cur
  | vObj fields, cur => poFields fields cur
  | data, cur => [⟨(if cur = "" then "data" else cur) ++ ".txt", jsString data⟩]

def poItems : List JSVal → Nat → String → List FileEntry
  | [], _, _ => []
  | item :: rest, i, cur =>
    (let itemPath := cur ++ "/item_" ++ toDecimal i
     if isObjectLike item then processObject item itemPath
     else [⟨itemPath ++ ".txt", jsString item⟩]) ++ poItems rest (i + 1) cur

def poFields : List (String × JSVal) → String → List FileEntry
  | [], _ => []
  | (k, v) :: rest, cur =>
    (let newPath := pjoin cur k
     if isObjectLike v then processObject v newPath
     else
       let ext := if isLongString v then "txt" else "json"
       [⟨newPath ++ "." ++ ext,
         if ext == "json" then jsonStringify2 v else jsString v⟩]) ++ poFields rest cur

end

def generateFileStructure (obj : JSVal) : List FileEntry := processObject obj ""

/-! ### `createFileTree` (JSON utility module)

`fileTree` is a plain object filled by assignments; the emission order of
the traversal (`cftEmit`) is folded through the assignment semantics
(`upsertStr`: overwrite in place, append if fresh). -/

mutual

def cftEmit : JSVal → String → List (String × String)
  | vArr items, cur => cfItems items 0 cur
  | vObj fields, cur => cfFields fields cur
  | o, cur => [((if cur = "" then "data" else cur) ++ ".txt", jsString o)]

def cfItems : List JSVal → Nat → String → List (String × String)
  | [], _, _ => []
  | item :: rest, i, cur =>
    (let itemPath := cur ++ "/item_" ++ toDecimal i
     if isObjectLike item then cftEmit item itemPath
     else [(itemPath ++ ".txt", jsString item)]) ++ cfItems rest (i + 1) cur

def cfFields : List (String × JSVal) → String → List (String × String)
  | [], _ => []
  | (k, v) :: rest, cur =>
    (let newPath := pjoin cur (sanitizeFilename k)
     if isObjectLike v then cftEmit v newPath
     else [(newPath ++ ".txt", jsString v)]) ++ cfFields rest cur

end

def upsertStr : List (String × String) → String → String → List (String × String)
  | [], k, v => [(k, v)]
  | (k', v') :: rest, k, v =>
    if k' == k then (k', v) :: rest else (k', v') :: upsertStr rest k v

def createFileTree (data : JSVal) (basePath : String) : List (String × String) :=
  (cftEmit data basePath).foldl (fun acc pc => upsertStr acc pc.1 pc.2) []

/-! ### Proof vocabulary

Ghost definitions used to state and prove properties of the embedded
operations: key well-formedness predicates, the segment chains denoted by
generated paths, and node addressing. -/

/-- Sibling keys pairwise distinct (an object cannot hold duplicate keys;
the association-list model admits such states, so the theorems assume this
base invariant of the data model). -/
def nodupKeysB : List (String × JSVal) → Bool
  | [] => true
  | (k, _) :: rest => !(rest.any (fun kv => kv.1 == k)) && nodupKeysB rest

mutual

/-- Keys nonempty and `/`-free, siblingwise distinct, along every path
`getFilePaths` can walk (i.e. through directory values). -/
def goodTreeB : JSVal → Bool
  | vObj fields => nodupKeysB fields && goodFieldsB fields
  | _ => true

def goodFieldsB : List (String × JSVal) → Bool
  | [] => true
  | (k, v) :: rest =>
    (k != "" && !hasSlash k && (if isDirLike v then goodTreeB v else true)) &&
      goodFieldsB rest

end

mutual

/-- Keys nonempty and `/`-free, siblingwise distinct, along every path the
converters can walk (through object and array containers alike). -/
def wfKeysB : JSVal → Bool
  | vObj fields => nodupKeysB fields && wfFieldsB fields
  | vArr xs => wfItemsB xs
  | _ => true

def wfFieldsB : List (String × JSVal) → Bool
  | [] => true
  | (k, v) :: rest => (k != "" && !hasSlash k && wfKeysB v) && wfFieldsB rest

def wfItemsB : List JSVal → Bool
  | [] => true
  | x :: rest => wfKeysB x && wfItemsB rest

end

mutual

/-- The segment chains (root-to-leaf name sequences) of the file leaves of
a tree object, in `getFilePaths` traversal order. -/
def fchains : JSVal → List (List String)
  | vObj fields => fchainsFields fields
  | _ => []

def fchainsFields : List (String × JSVal) → List (List String)
  | [] => []
  | (k, v) :: rest =>
    (if isDirLike v then (fchains v).map (fun ch => k :: ch) else [[k]]) ++
      fchainsFields rest

end

mutual

/-- The segment chains of the files emitted by `processObject`, extensions
included, relative to the current path. -/
def pchains : JSVal → List (List String)
  | vArr items => pchainsItems items 0
  | vObj fields => pchainsFields fields
  | _ => []

def pchainsItems : List JSVal → Nat → List (List String)
  | [], _ => []
  | x :: rest, i =>
    (if isObjectLike x then (pchains x).map (fun ch => ("item_" ++ toDecimal i) :: ch)
     else [["item_" ++ toDecimal i ++ ".txt"]]) ++ pchainsItems rest (i + 1)

def pchainsFields : List (String × JSVal) → List (List String)
  | [] => []
  | (k, v) :: rest =>
    (if isObjectLike v then (pchains v).map (fun ch => k :: ch)
     else [[k ++ "." ++ (if isLongString v then "txt" else "json")]]) ++
      pchainsFields rest

end

/-- "Non-object leaf" in the literal sense of the specification: neither an
object nor an array. -/
def isClaimLeaf (v : JSVal) : Bool := !isObjectLike v

mutual

/-- The validity predicate described by the specification sentence: a
non-array object each of whose values is either a recursively valid tree or
a non-object leaf. -/
def claimValidB : JSVal → Bool
  | vObj fields => claimValidFieldsB fields
  | _ => false

def claimValidFieldsB : List (String × JSVal) → Bool
  | [] => true
  | (_, v) :: rest => (claimValidB v || isClaimLeaf v) && claimValidFieldsB rest

end

mutual

/-- The amended validity predicate: a non-array object each of whose values
that is itself a non-array object is a recursively valid tree; every other
value (scalars, `null`, arrays) is accepted as a file leaf. -/
def amendValidB : JSVal → Bool
  | vObj fields => amendValidFieldsB fields
  | _ => false

def amendValidFieldsB : List (String × JSVal) → Bool
  | [] => true
  | (_, v) :: rest => (if isDirLike v then amendValidB v else true) && amendValidFieldsB rest

end

/-- Structural node addressing by exact key segments (proof vocabulary,
distinct from `findNodeByPath`). -/
def nodeAt : JSVal → List String → Option JSVal
  | t, [] => some t
  | vObj fields, k :: rest =>
    match fields.find? (fun kv => kv.1 == k) with
    | some kv => nodeAt kv.2 rest
    | none => none
  | _, _ :: _ => none

/-- The walk of `insertParts` stays inside plain objects (never descends
into an array or writes onto a non-object). -/
def insertOkB : JSVal → List String → Bool
  | _, [] => true
  | vObj _, [_] => true
  | vObj fields, k :: rest =>
    insertOkB
      (match jsProp (vObj fields) k with
       | some v => if isObjectLike v then v else vObj []
       | none => vObj []) rest
  | _, _ :: _ => false

/-- `a` is a (not necessarily proper) segmentwise prefix of `b`. -/
def ChainPre (a b : List String) : Prop := ∃ r, b = a ++ r

/-- Neither chain is a prefix of the other (in particular `a ≠ b`). -/
def NoPre (a b : List String) : Prop := ¬ ChainPre a b ∧ ¬ ChainPre b a

mutual

/-- The shape invariant of trees built by `createTreeFromPaths` with
default content `c`: the tree is a plain object with siblingwise distinct
keys; every child is either a directory object (recursively well-shaped,
with at least one file chain) or the literal leaf `c`. -/
def ShapeOk (c : JSVal) : JSVal → Prop
  | vObj fields => nodupKeysB fields = true ∧ ShapeFields c fields
  | _ => False

def ShapeFields (c : JSVal) : List (String × JSVal) → Prop
  | [] => True
  | (k, v) :: rest =>
    (k ≠ "" ∧ ((((∃ g, v = vObj g) ∧ ShapeOk c v ∧ fchains v ≠ []) ∨ v = c))) ∧
      ShapeFields c rest

end

/-- The file chains contributed by one object entry (proof vocabulary). -/
def entryChains (kv : String × JSVal) : List (List String) :=
  if isDirLike kv.2 then (fchains kv.2).map (fun ch => kv.1 :: ch) else [[kv.1]]

/-! ## Infrastructure lemmas -/

theorem strongInd {P : JSVal → Prop}
    (ih : ∀ v, (∀ w, sizeOf w < sizeOf v → P w) → P v) : ∀ v, P v := by
  intro v
  generalize hn : sizeOf v = n
  induction n using Nat.strong_induction_on generalizing v with
  | _ n IH =>
    subst hn
    exact ih v (fun w hw => IH (sizeOf w) hw w rfl)

theorem sizeOf_snd_lt_vObj {kv : String × JSVal} {fields : List (String × JSVal)}
    (h : kv ∈ fields) : sizeOf kv.2 < sizeOf (vObj fields) := by
  have h1 := List.sizeOf_lt_of_mem h
  obtain ⟨k, v⟩ := kv
  simp only [Prod.mk.sizeOf_spec] at h1
  simp only [vObj.sizeOf_spec]
  omega

theorem sizeOf_elem_lt_vArr {x : JSVal} {xs : List JSVal}
    (h : x ∈ xs) : sizeOf x < sizeOf (vArr xs) := by
  have h1 := List.sizeOf_lt_of_mem h
  simp only [vArr.sizeOf_spec]
  omega

/-! ## Claim C1: `getTreeStats` is consistent with the standalone counters -/

/-- Claim C1: for every tree `t`, `getTreeStats t` returns exactly the
values of the standalone operations, and `totalNodes` is the sum of the
`files` and `directories` fields (equivalently, of `countTreeFiles t` and
`countTreeDirectories t`). -/
theorem claim1_stats_consistent : ∀ t : JSVal,
    getTreeStats t =
      ⟨countTreeFiles t, countTreeDirectories t, getTreeDepth t,
       countTreeFiles t + countTreeDirectories t⟩ ∧
    (getTreeStats t).totalNodes = (getTreeStats t).files + (getTreeStats t).directories :=
  fun _ => ⟨rfl, rfl⟩

/-! ## Claim C2: conversion of the bare scalar `"hello"` -/

/-- Claim C2, counterexample: for the bare JSON string `"hello"`, both
converters emit the single path `data.txt` (not `data.json`) and the raw
`String(...)` coercion `hello` (not the pretty-printed JSON `"hello"`). -/
theorem claim2_counterexample :
    generateFileStructure (vStr "hello") = [⟨"data.txt", "hello"⟩] ∧
    createFileTree (vStr "hello") "" = [("data.txt", "hello")] ∧
    ("data.txt" : String) ≠ "data.json" ∧
    jsonStringify2 (vStr "hello") ≠ "hello" :=
  ⟨rfl, rfl, by decide, by decide⟩

/-- Claim C2 (amended): for the bare JSON scalar string `"hello"`, the
converter produces exactly one file, whose path is `data.txt` and whose
content is the JavaScript string coercion `hello`. -/
theorem claim2_bare_scalar :
    generateFileStructure (vStr "hello") = [⟨"data.txt", "hello"⟩] ∧
    createFileTree (vStr "hello") "" = [("data.txt", "hello")] ∧
    jsString (vStr "hello") = "hello" :=
  ⟨rfl, rfl, rfl⟩

/-! ## Claim C3: paths of a top-level array carry a leading slash -/

/-- Claim C3: evaluation at the failing input `[1]`.  Both builders emit the
path `/item_0.txt`, whose first character is `/`, contradicting the claimed
invariant that root path segments have no leading `/` and that top-level
array entries begin with `item_0`. -/
theorem claim3_leading_slash :
    createFileTree (vArr [vNum 1]) "" = [("/item_0.txt", "1")] ∧
    generateFileStructure (vArr [vNum 1]) = [⟨"/item_0.txt", "1"⟩] ∧
    ("/item_0.txt" : String).data.head? = some '/' :=
  ⟨rfl, rfl, by decide⟩

/-! ## Claim C8: the shape accepted by `isValidTree` -/

theorem validFields_congr : ∀ fields : List (String × JSVal),
    (∀ kv ∈ fields, isValidTree kv.2 = amendValidB kv.2) →
    isValidFields fields = amendValidFieldsB fields := by
  intro fields h
  induction fields with
  | nil => rfl
  | cons kv rest IH =>
    obtain ⟨k, v⟩ := kv
    have hv : isValidTree v = amendValidB v := h (k, v) (List.mem_cons_self _ _)
    have hrest := IH (fun kv hm => h kv (List.mem_cons_of_mem _ hm))
    simp only [isValidFields, amendValidFieldsB, hrest]
    cases hd : isDirLike v <;> simp [hd, hv]

/-- Claim C8, counterexample: the object `{a: []}` has a value (`[]`) that
is an object in the JavaScript sense and is not itself a valid tree, so
under the claimed characterisation it would be invalid; `isValidTree`
nevertheless accepts it, because any non-directory value — arrays
included — passes as a file leaf. -/
theorem claim8_counterexample :
    isValidTree (vObj [("a", vArr [])]) = true ∧
    claimValidB (vObj [("a", vArr [])]) = false :=
  ⟨rfl, rfl⟩

/-- Claim C8 (amended): `isValidTree` returns `false` for every array and
every primitive at top level, `true` for `{}`, never raises (it is total),
and in general returns `true` iff the value is a non-array object each of
whose values is either a recursively valid tree (directory) or a
non-directory leaf — any value that is not a non-array object, arrays and
`null` included, is accepted as a file leaf. -/
theorem claim8_isValidTree_shape :
    (∀ v, isValidTree v = amendValidB v) ∧
    (∀ xs, isValidTree (vArr xs) = false) ∧
    isValidTree (vObj []) = true ∧
    isValidTree vNull = false ∧
    (∀ b, isValidTree (vBool b) = false) ∧
    (∀ n, isValidTree (vNum n) = false) ∧
    (∀ s, isValidTree (vStr s) = false) := by
  refine ⟨?_, fun _ => rfl, rfl, rfl, fun _ => rfl, fun _ => rfl, fun _ => rfl⟩
  refine strongInd (fun v ih => ?_)
  cases v with
  | vObj fields =>
    have : isValidFields fields = amendValidFieldsB fields :=
      validFields_congr fields
        (fun kv hm => ih kv.2 (sizeOf_snd_lt_vObj hm))
    simpa [isValidTree, amendValidB] using this
  | vNull => rfl
  | vBool b => rfl
  | vNum n => rfl
  | vStr s => rfl
  | vArr xs => rfl

/-! ## Claim C9: `findNodeByPath` on separator-only paths -/

theorem splitChars_all_slash_filter : ∀ l : List Char, (∀ c ∈ l, c = '/') →
    ((splitChars l).map String.mk).filter (fun s => s.length > 0) = [] := by
  intro l h
  induction l with
  | nil => rfl
  | cons c rest IH =>
    have hc : c = '/' := h c (List.mem_cons_self _ _)
    subst hc
    have := IH (fun c hm => h c (List.mem_cons_of_mem _ hm))
    simp only [splitChars, if_pos rfl, List.map_cons, List.filter_cons]
    simpa using this

/-- Claim C9: for every tree object `t` and every nonempty path made of
`/` characters only (`"/"`, `"//"`, …), `findNodeByPath t path` returns
the root `t` itself (empty segments are discarded and the zero-segment
walk ends at the start node); a falsy (empty) path argument returns the
not-found value `none` for every input. -/
theorem claim9_root_on_separator_paths :
    (∀ (fields : List (String × JSVal)) (p : String), p ≠ "" →
      (∀ c ∈ p.data, c = '/') →
      findNodeByPath (vObj fields) p = some (vObj fields)) ∧
    (∀ t : JSVal, findNodeByPath t "" = none) := by
  constructor
  · intro fields p hp hsl
    have hbne : (p != "") = true := by simpa using hp
    unfold findNodeByPath splitSlash
    rw [splitChars_all_slash_filter p.data hsl]
    simp [jsTruthy, hbne, walkPath]
  · intro t
    simp [findNodeByPath]

/-- Claim C9, witness at `t = {}` and `path = "//"`. -/
theorem claim9_witness : findNodeByPath (vObj []) "//" = some (vObj []) :=
  claim9_root_on_separator_paths.1 [] "//" (by decide) (by decide)

/-! ## Claim C10: `createTreeFromPaths` overwrites a directory by a file -/

theorem find?_upsertFields : ∀ (fields : List (String × JSVal)) (k : String) (v : JSVal),
    ∃ k', ((upsertFields fields k v).find? (fun kv => kv.1 == k)) = some (k', v) := by
  intro fields k v
  induction fields with
  | nil => exact ⟨k, by simp [upsertFields]⟩
  | cons kv rest IH =>
    obtain ⟨k0, v0⟩ := kv
    by_cases h : (k0 == k) = true
    · exact ⟨k0, by simp [upsertFields, h]⟩
    · obtain ⟨k', hk⟩ := IH
      refine ⟨k', ?_⟩
      simp only [upsertFields, h]
      simp only [Bool.false_eq_true, if_false]
      rw [List.find?_cons_of_neg _ (by simpa using h)]
      exact hk

theorem nodeAt_upsert (fields : List (String × JSVal)) (k : String) (v : JSVal)
    (rest : List String) :
    nodeAt (vObj (upsertFields fields k v)) (k :: rest) = nodeAt v rest := by
  obtain ⟨k', hfind⟩ := find?_upsertFields fields k v
  simp [nodeAt, hfind]

@[simp] theorem nodeAt_nil (t : JSVal) : nodeAt t [] = some t := by
  cases t <;> rfl

theorem insertParts_nodeAt (c : JSVal) : ∀ (qs : List String) (k : String) (T : JSVal),
    insertOkB T (qs ++ [k]) = true →
    nodeAt (insertParts c T (qs ++ [k])) (qs ++ [k]) = some c := by
  intro qs
  induction qs with
  | nil =>
    intro k T hok
    cases T with
    | vObj fields =>
      simp only [List.nil_append, insertParts, jsSet]
      rw [nodeAt_upsert, nodeAt_nil]
    | vNull => simp [insertOkB] at hok
    | vBool b => simp [insertOkB] at hok
    | vNum n => simp [insertOkB] at hok
    | vStr s => simp [insertOkB] at hok
    | vArr xs => simp [insertOkB] at hok
  | cons q qs' IH =>
    intro k T hok
    obtain ⟨r, rest', hr⟩ : ∃ r rest', qs' ++ [k] = r :: rest' := by
      cases qs' with
      | nil => exact ⟨k, [], rfl⟩
      | cons a b => exact ⟨a, b ++ [k], rfl⟩
    cases T with
    | vObj fields =>
      simp only [List.cons_append] at hok ⊢
      rw [hr] at hok ⊢
      simp only [insertParts, insertOkB, jsSet] at hok ⊢
      rw [nodeAt_upsert]
      rw [← hr] at hok ⊢
      exact IH k _ hok
    | vNull => rw [List.cons_append, hr] at hok; simp [insertOkB] at hok
    | vBool b => rw [List.cons_append, hr] at hok; simp [insertOkB] at hok
    | vNum n => rw [List.cons_append, hr] at hok; simp [insertOkB] at hok
    | vStr s => rw [List.cons_append, hr] at hok; simp [insertOkB] at hok
    | vArr xs => rw [List.cons_append, hr] at hok; simp [insertOkB] at hok

/-- Claim C10: in `createTreeFromPaths`, when the final segment of a later
path `p` addresses a node that already exists as a directory in the tree
accumulated so far (and the walk to it stays inside plain objects), that
directory and its subtree are unconditionally replaced by a file holding
`defaultContent`. -/
theorem claim10_dir_overwritten_by_file :
    ∀ (ps : List String) (p : String) (c : JSVal) (qs : List String) (k : String)
      (g : List (String × JSVal)),
    isObjectLike c = false →
    parseParts p = qs ++ [k] →
    insertOkB (createTreeFromPaths ps c) (qs ++ [k]) = true →
    nodeAt (createTreeFromPaths ps c) (qs ++ [k]) = some (vObj g) →
    nodeAt (createTreeFromPaths (ps ++ [p]) c) (qs ++ [k]) = some c := by
  intro ps p c qs k g _ hparse hok _
  have hfold : createTreeFromPaths (ps ++ [p]) c =
      addPath (createTreeFromPaths ps c) p c := by
    simp [createTreeFromPaths, List.foldl_append]
  have hpne : (p == "") = false := by
    rcases h : (p == "") with _ | _
    · rfl
    · exfalso
      have : p = "" := by simpa using h
      subst this
      simp [parseParts, splitSlash, splitChars] at hparse
  rw [hfold]
  unfold addPath
  rw [hpne]
  simp only [Bool.false_eq_true, if_false, hparse]
  exact insertParts_nodeAt c qs k _ hok

/-- Claim C10, witness: paths `["a/b", "a"]` with default content `"x"`;
after `a/b` the node at `a` is the directory `{b: "x"}`, and processing the
later path `a` replaces it by the file `"x"`. -/
theorem claim10_witness :
    nodeAt (createTreeFromPaths (["a/b"] ++ ["a"]) (vStr "x")) ([] ++ ["a"]) =
      some (vStr "x") :=
  claim10_dir_overwritten_by_file ["a/b"] "a" (vStr "x") [] "a"
    [("b", vStr "x")] rfl rfl rfl rfl

/-! ## Claim C4: the key sanitizer -/

theorem collWsGo_no_ws : ∀ (b : Bool) (l : List Char), ∀ c ∈ collWsGo b l, isJsWs c = false := by
  intro b l
  induction l generalizing b with
  | nil => intro c hc; simp [collWsGo] at hc
  | cons a rest IH =>
    intro c hc
    by_cases ha : isJsWs a = true
    · rcases b with _ | _
      · simp only [collWsGo, ha, if_true, Bool.false_eq_true, if_false] at hc
        rcases List.mem_cons.mp hc with h | h
        · subst h; decide
        · exact IH true c h
      · simp only [collWsGo, ha, if_true] at hc
        exact IH true c hc
    · have ha' : isJsWs a = false := by simpa using ha
      simp only [collWsGo, ha', Bool.false_eq_true, if_false] at hc
      rcases List.mem_cons.mp hc with h | h
      · subst h; exact ha'
      · exact IH false c h

theorem collUndGo_mem : ∀ (b : Bool) (l : List Char), ∀ c ∈ collUndGo b l, c = '_' ∨ c ∈ l := by
  intro b l
  induction l generalizing b with
  | nil => intro c hc; simp [collUndGo] at hc
  | cons a rest IH =>
    intro c hc
    by_cases ha : a = '_'
    · subst ha
      rcases b with _ | _
      · simp only [collUndGo, if_pos rfl, Bool.false_eq_true, if_false] at hc
        rcases List.mem_cons.mp hc with h | h
        · exact Or.inl h
        · rcases IH true c h with h' | h'
          · exact Or.inl h'
          · exact Or.inr (List.mem_cons_of_mem _ h')
      · simp only [collUndGo, if_pos rfl, if_true] at hc
        rcases IH true c hc with h' | h'
        · exact Or.inl h'
        · exact Or.inr (List.mem_cons_of_mem _ h')
    · simp only [collUndGo, if_neg ha] at hc
      rcases List.mem_cons.mp hc with h | h
      · exact Or.inr (h ▸ List.mem_cons_self _ _)
      · rcases IH false c h with h' | h'
        · exact Or.inl h'
        · exact Or.inr (List.mem_cons_of_mem _ h')

theorem replSpecials_no_special : ∀ l : List Char, ∀ c ∈ replSpecials l, isSanSpecial c = false := by
  intro l c hc
  rcases List.mem_map.mp hc with ⟨a, _, ha⟩
  by_cases h : isSanSpecial a = true
  · rw [if_pos h] at ha; subst ha; decide
  · have h' : isSanSpecial a = false := by simpa using h
    rw [h'] at ha
    simp at ha
    exact ha ▸ h'

theorem collWsGo_mem : ∀ (b : Bool) (l : List Char), ∀ c ∈ collWsGo b l, c = '_' ∨ c ∈ l := by
  intro b l
  induction l generalizing b with
  | nil => intro c hc; simp [collWsGo] at hc
  | cons a rest IH =>
    intro c hc
    by_cases ha : isJsWs a = true
    · rcases b with _ | _
      · simp only [collWsGo, ha, if_true, Bool.false_eq_true, if_false] at hc
        rcases List.mem_cons.mp hc with h | h
        · exact Or.inl h
        · rcases IH true c h with h' | h'
          · exact Or.inl h'
          · exact Or.inr (List.mem_cons_of_mem _ h')
      · simp only [collWsGo, ha, if_true] at hc
        rcases IH true c hc with h' | h'
        · exact Or.inl h'
        · exact Or.inr (List.mem_cons_of_mem _ h')
    · have ha' : isJsWs a = false := by simpa using ha
      simp only [collWsGo, ha', Bool.false_eq_true, if_false] at hc
      rcases List.mem_cons.mp hc with h | h
      · exact Or.inr (h ▸ List.mem_cons_self _ _)
      · rcases IH false c h with h' | h'
        · exact Or.inl h'
        · exact Or.inr (List.mem_cons_of_mem _ h')

theorem dropWhile_of_all_false {p : Char → Bool} : ∀ l : List Char,
    (∀ c ∈ l, p c = false) → l.dropWhile p = l := by
  intro l h
  cases l with
  | nil => rfl
  | cons a rest =>
    rw [List.dropWhile_cons_of_neg]
    simp [h a (List.mem_cons_self _ _)]

theorem trimWs_of_no_ws : ∀ l : List Char, (∀ c ∈ l, isJsWs c = false) → trimWs l = l := by
  intro l h
  unfold trimWs
  rw [dropWhile_of_all_false l h,
      dropWhile_of_all_false l.reverse (fun c hc => h c (List.mem_reverse.mp hc)),
      List.reverse_reverse]

/-- The underscore-collapsing pass leaves no two adjacent underscores. -/
theorem collUndGo_head_true : ∀ (l : List Char) (c : Char),
    (collUndGo true l).head? = some c → c ≠ '_' := by
  intro l
  induction l with
  | nil => intro c hc; simp [collUndGo] at hc
  | cons a rest IH =>
    intro c hc
    by_cases ha : a = '_'
    · subst ha
      simp only [collUndGo, if_pos rfl, if_true] at hc
      exact IH c hc
    · simp only [collUndGo, if_neg ha, List.head?_cons, Option.some.injEq] at hc
      exact hc ▸ ha

theorem collUndGo_chain : ∀ (b : Bool) (l : List Char),
    List.Chain' (fun a c => ¬(a = '_' ∧ c = '_')) (collUndGo b l) := by
  intro b l
  induction l generalizing b with
  | nil => simp [collUndGo]
  | cons a rest IH =>
    by_cases ha : a = '_'
    · subst ha
      rcases b with _ | _
      · rw [show collUndGo false ('_' :: rest) = '_' :: collUndGo true rest from rfl]
        rw [List.chain'_cons']
        refine ⟨?_, IH true⟩
        intro c hc h
        exact collUndGo_head_true rest c hc h.2
      · rw [show collUndGo true ('_' :: rest) = collUndGo true rest from rfl]
        exact IH true
    · simp only [collUndGo, if_neg ha]
      rw [List.chain'_cons']
      refine ⟨?_, IH false⟩
      intro c _ h
      exact ha h.1

/-- Claim C4, counterexample: the input `" a "` carries leading and
trailing whitespace, yet the sanitizer's result `"_a_"` both begins and
ends with the underscore substituted for that whitespace — the final
`trim()` runs after every whitespace character has already been replaced
by `_`, so it removes nothing. -/
theorem claim4_counterexample :
    sanitizeFilename " a " = "_a_" ∧
    ("_a_" : String).data.head? = some '_' ∧
    ("_a_" : String).data.getLast? = some '_' ∧
    isJsWs ' ' = true :=
  ⟨rfl, by decide, by decide, by decide⟩

/-- Claim C4 (amended): the sanitizer replaces each of `< > : " / \ | ? *`
with `_`, replaces each whitespace run with a single `_`, collapses runs of
2-or-more underscores to one, and finally trims whitespace — but since all
whitespace has already been replaced by underscores the trim is a no-op,
so leading/trailing input whitespace yields a leading/trailing underscore
rather than being removed; the output contains no whitespace, no special
character, and no two adjacent underscores; `"my:key name"` sanitizes to
`"my_key_name"`. -/
theorem claim4_sanitizer :
    sanitizeFilename "my:key name" = "my_key_name" ∧
    (∀ s : String, sanitizeFilename s =
      String.mk (collUndGo false (collWsGo false (replSpecials s.data)))) ∧
    (∀ s : String, ∀ c ∈ (sanitizeFilename s).data,
      isJsWs c = false ∧ isSanSpecial c = false) ∧
    (∀ s : String,
      List.Chain' (fun a c => ¬(a = '_' ∧ c = '_')) (sanitizeFilename s).data) := by
  have hmem : ∀ s : String, ∀ c ∈ collUndGo false (collWsGo false (replSpecials s.data)),
      isJsWs c = false ∧ isSanSpecial c = false := by
    intro s c hc
    rcases collUndGo_mem false _ c hc with h | h
    · subst h; exact ⟨by decide, by decide⟩
    · constructor
      · exact collWsGo_no_ws false _ c h
      · rcases collWsGo_mem false _ c h with h' | h'
        · subst h'; decide
        · exact replSpecials_no_special _ c h'
  have heq : ∀ s : String, sanitizeFilename s =
      String.mk (collUndGo false (collWsGo false (replSpecials s.data))) := by
    intro s
    unfold sanitizeFilename
    rw [trimWs_of_no_ws _ (fun c hc => (hmem s c hc).1)]
  refine ⟨rfl, heq, ?_, ?_⟩
  · intro s c hc
    rw [heq s] at hc
    exact hmem s c hc
  · intro s
    rw [heq s]
    exact collUndGo_chain false _

/-! ## Claim C5: `sortTree` is idempotent

Facts about the code-unit comparator, then the insertion-sort lemmas, then
idempotence. -/

theorem cmpNatList_eq_iff : ∀ a b : List Nat, cmpNatList a b = .eq ↔ a = b := by
  intro a
  induction a with
  | nil => intro b; cases b <;> simp [cmpNatList]
  | cons x xs IH =>
    intro b
    cases b with
    | nil => simp [cmpNatList]
    | cons y ys =>
      by_cases hxy : x < y
      · simp only [cmpNatList, if_pos hxy]
        constructor
        · intro h; exact absurd h (by simp)
        · rintro h
          injection h with h1 h2
          omega
      · by_cases hyx : y < x
        · simp only [cmpNatList, if_neg hxy, if_pos hyx]
          constructor
          · intro h; exact absurd h (by simp)
          · rintro h
            injection h with h1 h2
            omega
        · have : x = y := by omega
          subst this
          simp only [cmpNatList, if_neg hxy, if_neg hyx, IH ys, List.cons.injEq, true_and]

theorem cmpNatList_lt_gt : ∀ a b : List Nat, cmpNatList a b = .lt ↔ cmpNatList b a = .gt := by
  intro a
  induction a with
  | nil => intro b; cases b <;> simp [cmpNatList]
  | cons x xs IH =>
    intro b
    cases b with
    | nil => simp [cmpNatList]
    | cons y ys =>
      by_cases hxy : x < y
      · have hyx : ¬ y < x := by omega
        simp [cmpNatList, hxy, hyx]
      · by_cases hyx : y < x
        · simp [cmpNatList, hxy, hyx]
        · simp [cmpNatList, hxy, hyx, IH ys]

theorem cmpNatList_lt_trans : ∀ a b c : List Nat,
    cmpNatList a b = .lt → cmpNatList b c = .lt → cmpNatList a c = .lt := by
  intro a
  induction a with
  | nil =>
    intro b c hab hbc
    cases b with
    | nil => simp [cmpNatList] at hab
    | cons y ys =>
      cases c with
      | nil => simp [cmpNatList] at hbc
      | cons z zs => simp [cmpNatList]
  | cons x xs IH =>
    intro b c hab hbc
    cases b with
    | nil => simp [cmpNatList] at hab
    | cons y ys =>
      cases c with
      | nil => simp [cmpNatList] at hbc
      | cons z zs =>
        by_cases hxy : x < y
        · by_cases hyz : y < z
          · simp [cmpNatList, show x < z by omega]
          · by_cases hzy : z < y
            · simp only [cmpNatList, if_neg hyz, if_pos hzy] at hbc
              exact absurd hbc (by simp)
            · have : y = z := by omega
              subst this
              simp [cmpNatList, hxy]
        · by_cases hyx : y < x
          · simp only [cmpNatList, if_neg hxy, if_pos hyx] at hab
            exact absurd hab (by simp)
          · have : x = y := by omega
            subst this
            simp only [cmpNatList, if_neg hxy] at hab
            by_cases hyz : x < z
            · simp [cmpNatList, hyz]
            · by_cases hzy : z < x
              · simp only [cmpNatList, if_neg hyz, if_pos hzy] at hbc
                exact absurd hbc (by simp)
              · have : x = z := by omega
                subst this
                simp only [cmpNatList, if_neg hyz, if_neg hzy] at hbc ⊢
                exact IH ys zs hab hbc

theorem u16_inj : ∀ c d : Char, u16 c = u16 d → c = d := by
  intro c d h
  unfold u16 at h
  have hcv := c.valid
  have hdv := d.valid
  by_cases h1 : c.val.toNat < 0x10000 <;> by_cases h2 : d.val.toNat < 0x10000
  · rw [if_pos h1, if_pos h2] at h
    simp only [List.cons.injEq, and_true] at h
    exact Char.ext (UInt32.toNat.inj h)
  · rw [if_pos h1, if_neg h2] at h
    simp at h
  · rw [if_neg h1, if_pos h2] at h
    simp at h
  · rw [if_neg h1, if_neg h2] at h
    simp only [List.cons.injEq, and_true] at h
    obtain ⟨hhi, hlo⟩ := h
    have hc2 : c.val.toNat < 0x110000 := by
      rcases hcv with h' | h'
      · omega
      · exact h'.2
    have hd2 : d.val.toNat < 0x110000 := by
      rcases hdv with h' | h'
      · omega
      · exact h'.2
    exact Char.ext (UInt32.toNat.inj (by omega))

theorem cmpChar_eq_iff : ∀ c d : Char, cmpChar c d = .eq ↔ c = d := by
  intro c d
  unfold cmpChar
  rw [cmpNatList_eq_iff]
  exact ⟨u16_inj c d, fun h => h ▸ rfl⟩

theorem cmpChar_lt_gt : ∀ c d : Char, cmpChar c d = .lt ↔ cmpChar d c = .gt :=
  fun c d => cmpNatList_lt_gt (u16 c) (u16 d)

theorem cmpChar_lt_trans {c d e : Char} :
    cmpChar c d = .lt → cmpChar d e = .lt → cmpChar c e = .lt :=
  cmpNatList_lt_trans (u16 c) (u16 d) (u16 e)

theorem cmpChars_eq_iff : ∀ a b : List Char, cmpChars a b = .eq ↔ a = b := by
  intro a
  induction a with
  | nil => intro b; cases b <;> simp [cmpChars]
  | cons x xs IH =>
    intro b
    cases b with
    | nil => simp [cmpChars]
    | cons y ys =>
      rcases hxy : cmpChar x y with _ | _ | _
      · simp only [cmpChars, hxy]
        constructor
        · intro h; exact absurd h (by simp)
        · rintro h
          injection h with h1 h2
          rw [h1] at hxy
          rw [(cmpChar_eq_iff y y).mpr rfl] at hxy
          exact absurd hxy (by simp)
      · have hx : x = y := (cmpChar_eq_iff x y).mp hxy
        subst hx
        simp only [cmpChars, hxy, IH ys, List.cons.injEq, true_and]
      · simp only [cmpChars, hxy]
        constructor
        · intro h; exact absurd h (by simp)
        · rintro h
          injection h with h1 h2
          rw [h1] at hxy
          rw [(cmpChar_eq_iff y y).mpr rfl] at hxy
          exact absurd hxy (by simp)

theorem cmpChars_lt_gt : ∀ a b : List Char, cmpChars a b = .lt ↔ cmpChars b a = .gt := by
  intro a
  induction a with
  | nil => intro b; cases b <;> simp [cmpChars]
  | cons x xs IH =>
    intro b
    cases b with
    | nil => simp [cmpChars]
    | cons y ys =>
      rcases hxy : cmpChar x y with _ | _ | _
      · have hyx : cmpChar y x = .gt := (cmpChar_lt_gt x y).mp hxy
        simp [cmpChars, hxy, hyx]
      · have hx : x = y := (cmpChar_eq_iff x y).mp hxy
        subst hx
        simp [cmpChars, hxy, IH ys]
      · have hyx : cmpChar y x = .lt := (cmpChar_lt_gt y x).mpr hxy
        simp [cmpChars, hxy, hyx]

theorem cmpChars_lt_trans : ∀ a b c : List Char,
    cmpChars a b = .lt → cmpChars b c = .lt → cmpChars a c = .lt := by
  intro a
  induction a with
  | nil =>
    intro b c hab hbc
    cases b with
    | nil => simp [cmpChars] at hab
    | cons y ys =>
      cases c with
      | nil => simp [cmpChars] at hbc
      | cons z zs => simp [cmpChars]
  | cons x xs IH =>
    intro b c hab hbc
    cases b with
    | nil => simp [cmpChars] at hab
    | cons y ys =>
      cases c with
      | nil => simp [cmpChars] at hbc
      | cons z zs =>
        rcases hxy : cmpChar x y with _ | _ | _ <;>
          rcases hyz : cmpChar y z with _ | _ | _
        · simp [cmpChars, cmpChar_lt_trans hxy hyz]
        · have hy : y = z := (cmpChar_eq_iff y z).mp hyz
          subst hy
          simp [cmpChars, hxy]
        · simp only [cmpChars, hyz] at hbc
          exact absurd hbc (by simp)
        · have hx : x = y := (cmpChar_eq_iff x y).mp hxy
          subst hx
          simp [cmpChars, hyz]
        · have hx : x = y := (cmpChar_eq_iff x y).mp hxy
          have hy : y = z := (cmpChar_eq_iff y z).mp hyz
          subst hx; subst hy
          simp only [cmpChars, hxy] at hab hbc ⊢
          exact IH ys zs hab hbc
        · simp only [cmpChars, hyz] at hbc
          exact absurd hbc (by simp)
        · simp only [cmpChars, hxy] at hab
          exact absurd hab (by simp)
        · simp only [cmpChars, hxy] at hab
          exact absurd hab (by simp)
        · simp only [cmpChars, hxy] at hab
          exact absurd hab (by simp)

theorem string_data_inj : ∀ a b : String, a.data = b.data → a = b := by
  intro a b h
  exact congrArg String.mk h

theorem strLtB_false_antisymm {a b : String}
    (h1 : strLtB a b = false) (h2 : strLtB b a = false) : a = b := by
  unfold strLtB at h1 h2
  rcases h : cmpChars a.data b.data with _ | _ | _
  · rw [h] at h1; exact absurd h1 (by decide)
  · exact string_data_inj a b ((cmpChars_eq_iff _ _).mp h)
  · have := (cmpChars_lt_gt b.data a.data).mpr h
    rw [this] at h2
    exact absurd h2 (by decide)

theorem strLtB_asymm {a b : String} (h : strLtB a b = true) : strLtB b a = false := by
  unfold strLtB at h ⊢
  have hlt : cmpChars a.data b.data = .lt := by
    rcases h' : cmpChars a.data b.data with _ | _ | _
    · rfl
    · rw [h'] at h; exact absurd h (by decide)
    · rw [h'] at h; exact absurd h (by decide)
  have hgt := (cmpChars_lt_gt a.data b.data).mp hlt
  rw [hgt]
  decide

theorem strLe_trans {a b c : String}
    (h1 : strLtB b a = false) (h2 : strLtB c b = false) : strLtB c a = false := by
  unfold strLtB at h1 h2 ⊢
  rcases hca : cmpChars c.data a.data with _ | _ | _
  · exfalso
    rcases hcb : cmpChars c.data b.data with _ | _ | _
    · rw [hcb] at h2; exact absurd h2 (by decide)
    · have : c.data = b.data := (cmpChars_eq_iff _ _).mp hcb
      have hba : cmpChars b.data a.data = .lt := by rw [← this]; exact hca
      rw [hba] at h1; exact absurd h1 (by decide)
    · have hbc : cmpChars b.data c.data = .lt := (cmpChars_lt_gt _ _).mpr hcb
      have hba : cmpChars b.data a.data = .lt := cmpChars_lt_trans _ _ _ hbc hca
      rw [hba] at h1; exact absurd h1 (by decide)
  · decide
  · decide

theorem mem_insertByKey : ∀ (l : List (String × JSVal)) (x y : String × JSVal),
    y ∈ insertByKey x l ↔ y = x ∨ y ∈ l := by
  intro l x y
  induction l with
  | nil => simp [insertByKey]
  | cons z zs IH =>
    by_cases h : strLtB z.1 x.1 = true
    · simp only [insertByKey, if_pos h, List.mem_cons, IH]
      tauto
    · have h' : strLtB z.1 x.1 = false := by simpa using h
      simp only [insertByKey, h', Bool.false_eq_true, if_false, List.mem_cons]

theorem mem_sortByKey : ∀ (l : List (String × JSVal)) (y : String × JSVal),
    y ∈ sortByKey l ↔ y ∈ l := by
  intro l y
  induction l with
  | nil => simp [sortByKey]
  | cons x xs IH => simp [sortByKey, mem_insertByKey, IH]

theorem insertByKey_pairwise : ∀ (l : List (String × JSVal)) (x : String × JSVal),
    l.Pairwise (fun p q => strLtB q.1 p.1 = false) →
    (insertByKey x l).Pairwise (fun p q => strLtB q.1 p.1 = false) := by
  intro l x
  induction l with
  | nil => intro _; simp [insertByKey]
  | cons y ys IH =>
    intro hp
    rw [List.pairwise_cons] at hp
    by_cases h : strLtB y.1 x.1 = true
    · rw [show insertByKey x (y :: ys) = y :: insertByKey x ys from by
        simp [insertByKey, h]]
      rw [List.pairwise_cons]
      constructor
      · intro z hz
        rcases (mem_insertByKey ys x z).mp hz with hzx | hzy
        · subst hzx; exact strLtB_asymm h
        · exact hp.1 z hzy
      · exact IH hp.2
    · have h' : strLtB y.1 x.1 = false := by simpa using h
      rw [show insertByKey x (y :: ys) = x :: y :: ys from by
        simp [insertByKey, h']]
      rw [List.pairwise_cons]
      constructor
      · intro z hz
        rcases List.mem_cons.mp hz with hzy | hzys
        · subst hzy; exact h'
        · exact strLe_trans h' (hp.1 z hzys)
      · rw [List.pairwise_cons]
        exact hp

theorem sortByKey_pairwise : ∀ l : List (String × JSVal),
    (sortByKey l).Pairwise (fun p q => strLtB q.1 p.1 = false) := by
  intro l
  induction l with
  | nil => simp [sortByKey]
  | cons x xs IH => exact insertByKey_pairwise _ x IH

theorem sortByKey_sorted_id : ∀ l : List (String × JSVal),
    l.Pairwise (fun p q => strLtB q.1 p.1 = false) → sortByKey l = l := by
  intro l
  induction l with
  | nil => intro _; rfl
  | cons x xs IH =>
    intro hp
    rw [List.pairwise_cons] at hp
    rw [show sortByKey (x :: xs) = insertByKey x (sortByKey xs) from rfl, IH hp.2]
    cases xs with
    | nil => rfl
    | cons y ys =>
      have hxy : strLtB y.1 x.1 = false := hp.1 y (List.mem_cons_self _ _)
      simp [insertByKey, hxy]

theorem sortedDirsObj_append : ∀ l1 l2 : List (String × JSVal),
    sortedDirsObj (l1 ++ l2) = sortedDirsObj l1 ++ sortedDirsObj l2 := by
  intro l1 l2
  induction l1 with
  | nil => rfl
  | cons kv rest IH =>
    obtain ⟨k, v⟩ := kv
    simp [sortedDirsObj, IH, List.append_assoc]

theorem sortedDirsObj_of_files : ∀ l : List (String × JSVal),
    (∀ kv ∈ l, isDirLike kv.2 = false) → sortedDirsObj l = [] := by
  intro l h
  induction l with
  | nil => rfl
  | cons kv rest IH =>
    obtain ⟨k, v⟩ := kv
    have hv := h (k, v) (List.mem_cons_self _ _)
    simp only at hv
    simp [sortedDirsObj, hv, IH (fun kv hm => h kv (List.mem_cons_of_mem _ hm))]

theorem sortedDirsObj_of_fixed : ∀ l : List (String × JSVal),
    (∀ kv ∈ l, isDirLike kv.2 = true ∧ sortTree kv.2 = kv.2) → sortedDirsObj l = l := by
  intro l h
  induction l with
  | nil => rfl
  | cons kv rest IH =>
    obtain ⟨k, v⟩ := kv
    have hv := h (k, v) (List.mem_cons_self _ _)
    simp only at hv
    simp [sortedDirsObj, hv.1, hv.2, IH (fun kv hm => h kv (List.mem_cons_of_mem _ hm))]

theorem filter_of_all_dir : ∀ l : List (String × JSVal),
    (∀ kv ∈ l, isDirLike kv.2 = true) → l.filter (fun kv => !isDirLike kv.2) = [] := by
  intro l h
  induction l with
  | nil => rfl
  | cons kv rest IH =>
    have hv := h kv (List.mem_cons_self _ _)
    simp [List.filter_cons, hv, IH (fun kv hm => h kv (List.mem_cons_of_mem _ hm))]

theorem filter_of_all_files : ∀ l : List (String × JSVal),
    (∀ kv ∈ l, isDirLike kv.2 = false) → l.filter (fun kv => !isDirLike kv.2) = l := by
  intro l h
  induction l with
  | nil => rfl
  | cons kv rest IH =>
    have hv := h kv (List.mem_cons_self _ _)
    simp [List.filter_cons, hv, IH (fun kv hm => h kv (List.mem_cons_of_mem _ hm))]

theorem mem_sortedDirsObj : ∀ (l : List (String × JSVal)) (x : String × JSVal),
    x ∈ sortedDirsObj l → ∃ kv ∈ l, isDirLike kv.2 = true ∧ x = (kv.1, sortTree kv.2) := by
  intro l x
  induction l with
  | nil => intro h; simp [sortedDirsObj] at h
  | cons kv rest IH =>
    obtain ⟨k, v⟩ := kv
    intro h
    by_cases hd : isDirLike v = true
    · simp only [sortedDirsObj, hd, if_true, List.singleton_append, List.mem_cons] at h
      rcases h with h | h
      · exact ⟨(k, v), List.mem_cons_self _ _, hd, h⟩
      · obtain ⟨kv', hm, hd', hx⟩ := IH h
        exact ⟨kv', List.mem_cons_of_mem _ hm, hd', hx⟩
    · have hd' : isDirLike v = false := by simpa using hd
      simp only [sortedDirsObj, hd', Bool.false_eq_true, if_false, List.nil_append] at h
      obtain ⟨kv', hm, hd'', hx⟩ := IH h
      exact ⟨kv', List.mem_cons_of_mem _ hm, hd'', hx⟩

theorem mem_sortedDirsArr : ∀ (xs : List JSVal) (i : Nat) (x : String × JSVal),
    x ∈ sortedDirsArr xs i → ∃ e ∈ xs, isDirLike e = true ∧ x.2 = sortTree e := by
  intro xs
  induction xs with
  | nil => intro i x h; simp [sortedDirsArr] at h
  | cons e rest IH =>
    intro i x h
    by_cases hd : isDirLike e = true
    · simp only [sortedDirsArr, hd, if_true, List.singleton_append, List.mem_cons] at h
      rcases h with h | h
      · exact ⟨e, List.mem_cons_self _ _, hd, by rw [h]⟩
      · obtain ⟨e', hm, hd', hx⟩ := IH (i + 1) x h
        exact ⟨e', List.mem_cons_of_mem _ hm, hd', hx⟩
    · have hd' : isDirLike e = false := by simpa using hd
      simp only [sortedDirsArr, hd', Bool.false_eq_true, if_false, List.nil_append] at h
      obtain ⟨e', hm, hd'', hx⟩ := IH (i + 1) x h
      exact ⟨e', List.mem_cons_of_mem _ hm, hd'', hx⟩

theorem mem_arrFileEntries : ∀ (xs : List JSVal) (i : Nat) (x : String × JSVal),
    x ∈ arrFileEntries xs i → isDirLike x.2 = false := by
  intro xs
  induction xs with
  | nil => intro i x h; simp [arrFileEntries] at h
  | cons e rest IH =>
    intro i x h
    by_cases hd : isDirLike e = true
    · simp only [arrFileEntries, hd, if_true, List.nil_append] at h
      exact IH (i + 1) x h
    · have hd' : isDirLike e = false := by simpa using hd
      simp only [arrFileEntries, hd', Bool.false_eq_true, if_false,
        List.singleton_append, List.mem_cons] at h
      rcases h with h | h
      · rw [h]; exact hd'
      · exact IH (i + 1) x h

theorem isDirLike_sortTree {v : JSVal} (h : isDirLike v = true) :
    isDirLike (sortTree v) = true := by
  cases v <;> simp_all [isDirLike, sortTree]

theorem sortTree_sorted_obj : ∀ (D F : List (String × JSVal)),
    (∀ kv ∈ D, isDirLike kv.2 = true ∧ sortTree kv.2 = kv.2) →
    (∀ kv ∈ F, isDirLike kv.2 = false) →
    D.Pairwise (fun p q => strLtB q.1 p.1 = false) →
    F.Pairwise (fun p q => strLtB q.1 p.1 = false) →
    sortTree (vObj (D ++ F)) = vObj (D ++ F) := by
  intro D F hD hF hDp hFp
  show vObj (sortByKey (sortedDirsObj (D ++ F)) ++
      sortByKey ((D ++ F).filter (fun kv => !isDirLike kv.2))) = vObj (D ++ F)
  rw [sortedDirsObj_append, sortedDirsObj_of_files F hF, List.append_nil,
      sortedDirsObj_of_fixed D hD, List.filter_append,
      filter_of_all_dir D (fun kv h => (hD kv h).1), List.nil_append,
      filter_of_all_files F hF, sortByKey_sorted_id D hDp, sortByKey_sorted_id F hFp]

/-- Claim C5: `sortTree` is idempotent — applying it a second time changes
nothing, since the first pass leaves, at every level, sorted directory
entries (recursively sorted) followed by sorted file entries. -/
theorem claim5_sortTree_idempotent : ∀ t : JSVal, sortTree (sortTree t) = sortTree t := by
  refine strongInd (fun t ih => ?_)
  cases t with
  | vObj fields =>
    refine sortTree_sorted_obj _ _ ?_ ?_ (sortByKey_pairwise _) (sortByKey_pairwise _)
    · intro kv hm
      obtain ⟨⟨k0, v0⟩, hmem, hdir, hx⟩ :=
        mem_sortedDirsObj _ kv ((mem_sortByKey _ kv).mp hm)
      subst hx
      exact ⟨isDirLike_sortTree hdir, ih v0 (sizeOf_snd_lt_vObj hmem)⟩
    · intro kv hm
      have := List.mem_filter.mp ((mem_sortByKey _ kv).mp hm)
      simpa using this.2
  | vArr xs =>
    refine sortTree_sorted_obj _ _ ?_ ?_ (sortByKey_pairwise _) (sortByKey_pairwise _)
    · intro kv hm
      obtain ⟨e, hmem, hdir, hx⟩ := mem_sortedDirsArr _ 0 kv ((mem_sortByKey _ kv).mp hm)
      refine ⟨by rw [hx]; exact isDirLike_sortTree hdir, ?_⟩
      rw [hx]
      exact ih e (sizeOf_elem_lt_vArr hmem)
    · intro kv hm
      exact mem_arrFileEntries _ 0 kv ((mem_sortByKey _ kv).mp hm)
  | vNull => rfl
  | vBool b => rfl
  | vNum n => rfl
  | vStr s => rfl

/-! ## String, decimal and path-splitting infrastructure for C6 and C7 -/

theorem str_append_data (a b : String) : (a ++ b).data = a.data ++ b.data := rfl

theorem str_append_right_cancel {a b c : String} (h : a ++ c = b ++ c) : a = b := by
  apply string_data_inj
  have := congrArg String.data h
  rw [str_append_data, str_append_data] at this
  exact List.append_cancel_right this

theorem str_append_left_cancel {a b c : String} (h : a ++ b = a ++ c) : b = c := by
  apply string_data_inj
  have := congrArg String.data h
  rw [str_append_data, str_append_data] at this
  exact List.append_cancel_left this

/-- A string ending in `.json` never equals one ending in `.txt`. -/
theorem ext_json_ne_txt (a b : String) : a ++ ".json" ≠ b ++ ".txt" := by
  intro h
  have hd := congrArg (fun s : String => s.data.reverse) h
  simp only [str_append_data, List.reverse_append] at hd
  have : (".json" : String).data.reverse = ['n', 'o', 's', 'j', '.'] := rfl
  rw [this] at hd
  have : (".txt" : String).data.reverse = ['t', 'x', 't', '.'] := rfl
  rw [this] at hd
  injection hd with h1 _
  exact absurd h1 (by decide)

theorem str_ne_empty_iff (s : String) : s ≠ "" ↔ s.data ≠ [] := by
  constructor
  · intro h h'
    exact h (string_data_inj s "" h')
  · intro h h'
    exact h (h' ▸ rfl)

theorem str_length_pos_of_ne {s : String} (h : s ≠ "") : decide (s.length > 0) = true := by
  have hd := (str_ne_empty_iff s).mp h
  have : s.length = s.data.length := rfl
  simp only [decide_eq_true_eq, this]
  cases hs : s.data with
  | nil => exact absurd hs hd
  | cons c cs => simp

theorem append_mid_ne_empty (a s b : String) (hs : s.data ≠ []) : a ++ s ++ b ≠ "" := by
  rw [str_ne_empty_iff]
  simp only [str_append_data]
  intro h
  have := congrArg List.length h
  simp only [List.length_append, List.length_nil] at this
  cases hs' : s.data with
  | nil => exact hs hs'
  | cons c cs => rw [hs'] at this; simp at this

/-! ### Decimal rendering facts -/

theorem toDecGo_spec : ∀ (fuel n : Nat) (acc : List Char), n ≤ fuel →
    toDecGo fuel n acc = toDecRec n ++ acc := by
  intro fuel
  induction fuel with
  | zero =>
    intro n acc hle
    have : n = 0 := by omega
    subst this
    simp [toDecGo, toDecRec]
  | succ fuel IH =>
    intro n acc hle
    by_cases h : n < 10
    · simp [toDecGo, toDecRec, h]
    · have hdiv : n / 10 ≤ fuel := by
        have := Nat.div_lt_self (show 0 < n by omega) (show 1 < 10 by omega)
        omega
      rw [show toDecGo (fuel + 1) n acc = toDecGo fuel (n / 10) (decDigit (n % 10) :: acc)
          from by simp [toDecGo, h]]
      rw [IH (n / 10) _ hdiv]
      rw [show toDecRec n = toDecRec (n / 10) ++ [decDigit (n % 10)] from by
        rw [toDecRec]; simp [h]]
      simp

theorem toDecChars_eq_rec (n : Nat) : toDecChars n = toDecRec n := by
  have := toDecGo_spec n n [] (le_refl n)
  simpa [toDecChars] using this

theorem decDigit_inj {m n : Nat} (hm : m < 10) (hn : n < 10)
    (h : decDigit m = decDigit n) : m = n := by
  interval_cases m <;> interval_cases n <;> first | rfl | exact absurd h (by decide)

theorem decDigit_ne_slash {m : Nat} (hm : m < 10) : decDigit m ≠ '/' := by
  interval_cases m <;> decide

theorem toDecRec_small {n : Nat} (h : n < 10) : toDecRec n = [decDigit n] := by
  rw [toDecRec]
  simp [h]

theorem toDecRec_big {n : Nat} (h : ¬ n < 10) :
    toDecRec n = toDecRec (n / 10) ++ [decDigit (n % 10)] := by
  conv_lhs => rw [toDecRec]
  simp [h]

theorem toDecRec_ne_nil (n : Nat) : toDecRec n ≠ [] := by
  by_cases h : n < 10
  · rw [toDecRec_small h]; simp
  · rw [toDecRec_big h]; simp

theorem toDecRec_inj : ∀ m n : Nat, toDecRec m = toDecRec n → m = n := by
  intro m
  induction m using Nat.strong_induction_on with
  | _ m IH =>
    intro n h
    by_cases hm : m < 10 <;> by_cases hn : n < 10
    · rw [toDecRec_small hm, toDecRec_small hn] at h
      injection h with h1 _
      exact decDigit_inj hm hn h1
    · exfalso
      rw [toDecRec_small hm, toDecRec_big hn] at h
      have hlen := congrArg List.length h
      simp only [List.length_cons, List.length_nil, List.length_append] at hlen
      have hne := toDecRec_ne_nil (n / 10)
      cases h' : toDecRec (n / 10) with
      | nil => exact hne h'
      | cons c cs => rw [h'] at hlen; simp at hlen
    · exfalso
      rw [toDecRec_big hm, toDecRec_small hn] at h
      have hlen := congrArg List.length h
      simp only [List.length_cons, List.length_nil, List.length_append] at hlen
      have hne := toDecRec_ne_nil (m / 10)
      cases h' : toDecRec (m / 10) with
      | nil => exact hne h'
      | cons c cs => rw [h'] at hlen; simp at hlen
    · rw [toDecRec_big hm, toDecRec_big hn] at h
      have hrev := congrArg List.reverse h
      simp only [List.reverse_append, List.reverse_cons, List.reverse_nil,
        List.nil_append, List.cons_append] at hrev
      injection hrev with h1 h2
      have hmod : m % 10 = n % 10 :=
        decDigit_inj (Nat.mod_lt _ (by omega)) (Nat.mod_lt _ (by omega)) h1
      have hdivs : toDecRec (m / 10) = toDecRec (n / 10) := by
        have := congrArg List.reverse h2
        simpa using this
      have hdve : m / 10 = n / 10 :=
        IH (m / 10) (Nat.div_lt_self (by omega) (by omega)) (n / 10) hdivs
      omega

theorem toDecimal_data (n : Nat) : (toDecimal n).data = toDecRec n := by
  rw [show (toDecimal n).data = toDecChars n from rfl, toDecChars_eq_rec]

theorem toDecimal_inj {m n : Nat} (h : toDecimal m = toDecimal n) : m = n := by
  have hd := congrArg String.data h
  rw [toDecimal_data, toDecimal_data] at hd
  exact toDecRec_inj m n hd

theorem toDecimal_no_slash (n : Nat) : hasSlash (toDecimal n) = false := by
  have hmem : ∀ m, '/' ∉ toDecRec m := by
    intro m
    induction m using Nat.strong_induction_on with
    | _ m IH =>
      by_cases hm : m < 10
      · rw [toDecRec_small hm]
        simp only [List.mem_singleton]
        exact fun h => decDigit_ne_slash hm h.symm
      · rw [toDecRec_big hm]
        simp only [List.mem_append, List.mem_singleton]
        rintro (h | h)
        · exact IH (m / 10) (Nat.div_lt_self (by omega) (by omega)) h
        · exact decDigit_ne_slash (Nat.mod_lt _ (by omega)) h.symm
  unfold hasSlash
  rw [toDecimal_data]
  simpa [List.contains] using hmem n

theorem toDecimal_ne_empty (n : Nat) : toDecimal n ≠ "" := by
  rw [str_ne_empty_iff, toDecimal_data]
  exact toDecRec_ne_nil n

theorem hasSlash_append (a b : String) :
    hasSlash (a ++ b) = (hasSlash a || hasSlash b) := by
  unfold hasSlash
  rw [str_append_data]
  simp [List.contains]

/-! ### Split / join round trip -/

theorem splitChars_no_slash : ∀ l : List Char, '/' ∉ l → splitChars l = [l] := by
  intro l h
  induction l with
  | nil => rfl
  | cons c rest IH =>
    have hc : c ≠ '/' := fun h' => h (h' ▸ List.mem_cons_self _ _)
    have := IH (fun h' => h (List.mem_cons_of_mem _ h'))
    simp only [splitChars, if_neg hc, this]

theorem splitChars_append_slash : ∀ l1 l2 : List Char, '/' ∉ l1 →
    splitChars (l1 ++ '/' :: l2) = l1 :: splitChars l2 := by
  intro l1 l2 h
  induction l1 with
  | nil => simp [splitChars]
  | cons c rest IH =>
    have hc : c ≠ '/' := fun h' => h (h' ▸ List.mem_cons_self _ _)
    have := IH (fun h' => h (List.mem_cons_of_mem _ h'))
    simp only [List.cons_append, splitChars, if_neg hc, List.append_eq, this]

theorem joinChain_cons (s : String) {ch : List String} (h : ch ≠ []) :
    joinChain (s :: ch) = s ++ "/" ++ joinChain ch := by
  cases ch with
  | nil => exact absurd rfl h
  | cons a rest => rfl

theorem hasSlash_false_not_mem {s : String} (h : hasSlash s = false) : '/' ∉ s.data := by
  unfold hasSlash at h
  simpa [List.contains] using h

theorem splitSlash_joinChain : ∀ ch : List String, ch ≠ [] →
    (∀ s ∈ ch, hasSlash s = false) → splitSlash (joinChain ch) = ch := by
  intro ch
  induction ch with
  | nil => intro h; exact absurd rfl h
  | cons s rest IH =>
    intro _ hgood
    cases rest with
    | nil =>
      have hs : '/' ∉ s.data := hasSlash_false_not_mem (hgood s (List.mem_cons_self _ _))
      show splitSlash s = [s]
      show (splitChars s.data).map String.mk = [s]
      rw [splitChars_no_slash s.data hs]
      simp
    | cons b brest =>
      have hs : '/' ∉ s.data := hasSlash_false_not_mem (hgood s (List.mem_cons_self _ _))
      have hrest := IH (by simp) (fun x hx => hgood x (List.mem_cons_of_mem _ hx))
      rw [joinChain_cons s (by simp)]
      show (splitChars (s ++ "/" ++ joinChain (b :: brest)).data).map String.mk = _
      have hdata : (s ++ "/" ++ joinChain (b :: brest)).data =
          s.data ++ '/' :: (joinChain (b :: brest)).data := by
        rw [str_append_data, str_append_data]
        simp [List.append_assoc]
      rw [hdata, splitChars_append_slash s.data _ hs]
      simp only [List.map_cons]
      rw [show String.mk s.data = s from rfl]
      exact congrArg (s :: ·) hrest

theorem joinChain_inj {c1 c2 : List String} (h1 : c1 ≠ []) (h2 : c2 ≠ [])
    (g1 : ∀ s ∈ c1, hasSlash s = false) (g2 : ∀ s ∈ c2, hasSlash s = false)
    (h : joinChain c1 = joinChain c2) : c1 = c2 := by
  have := congrArg splitSlash h
  rwa [splitSlash_joinChain c1 h1 g1, splitSlash_joinChain c2 h2 g2] at this

theorem parseParts_joinChain (ch : List String) (hne : ch ≠ [])
    (hgood : ∀ s ∈ ch, s ≠ "" ∧ hasSlash s = false) :
    parseParts (joinChain ch) = ch := by
  unfold parseParts
  rw [splitSlash_joinChain ch hne (fun s hs => (hgood s hs).2)]
  induction ch with
  | nil => rfl
  | cons s rest IH =>
    rw [List.filter_cons]
    rw [str_length_pos_of_ne (hgood s (List.mem_cons_self _ _)).1]
    simp only [if_true]
    cases rest with
    | nil => rfl
    | cons b brest =>
      exact congrArg (s :: ·)
        (IH (by simp) (fun x hx => hgood x (List.mem_cons_of_mem _ hx)))

/-! ## Claim C7: generated file paths and their segment chains -/

theorem str_append_ne_empty_left (a b : String) (ha : a.data ≠ []) : a ++ b ≠ "" := by
  rw [str_ne_empty_iff, str_append_data]
  intro h
  have := congrArg List.length h
  simp only [List.length_append, List.length_nil] at this
  cases h' : a.data with
  | nil => exact ha h'
  | cons c cs => rw [h'] at this; simp at this

theorem nodupKeysB_cons {k : String} {v : JSVal} {rest : List (String × JSVal)} :
    nodupKeysB ((k, v) :: rest) = true ↔
      (∀ kv ∈ rest, kv.1 ≠ k) ∧ nodupKeysB rest = true := by
  simp only [nodupKeysB, Bool.and_eq_true, Bool.not_eq_true']
  constructor
  · rintro ⟨h1, h2⟩
    refine ⟨?_, h2⟩
    intro kv hm he
    have : rest.any (fun kv => kv.1 == k) = true :=
      List.any_eq_true.mpr ⟨kv, hm, by simp [he]⟩
    rw [this] at h1
    exact absurd h1 (by decide)
  · rintro ⟨h1, h2⟩
    refine ⟨?_, h2⟩
    rcases h : rest.any (fun kv => kv.1 == k) with _ | _
    · rfl
    · obtain ⟨kv, hm, he⟩ := List.any_eq_true.mp h
      exact absurd (by simpa using he) (h1 kv hm)

theorem wfFieldsB_cons {k : String} {v : JSVal} {rest : List (String × JSVal)} :
    wfFieldsB ((k, v) :: rest) = true ↔
      (k ≠ "" ∧ hasSlash k = false ∧ wfKeysB v = true) ∧ wfFieldsB rest = true := by
  simp only [wfFieldsB, Bool.and_eq_true, bne_iff_ne, Bool.not_eq_true']
  tauto

theorem wfItemsB_cons {x : JSVal} {rest : List JSVal} :
    wfItemsB (x :: rest) = true ↔ wfKeysB x = true ∧ wfItemsB rest = true := by
  simp only [wfItemsB, Bool.and_eq_true]

theorem pchainsFields_ne_nil : ∀ fields : List (String × JSVal),
    ∀ ch ∈ pchainsFields fields, ch ≠ [] := by
  intro fields
  induction fields with
  | nil => intro ch hch; simp [pchainsFields] at hch
  | cons kv rest IH =>
    obtain ⟨k, w⟩ := kv
    intro ch hch
    rcases List.mem_append.mp hch with h | h
    · by_cases ho : isObjectLike w = true
      · rw [if_pos ho] at h
        obtain ⟨ch', _, hch'⟩ := List.mem_map.mp h
        exact hch' ▸ (by simp)
      · rw [if_neg ho] at h
        have h' := List.mem_singleton.mp h
        exact h' ▸ (by simp)
    · exact IH ch h

theorem pchainsItems_ne_nil : ∀ (xs : List JSVal) (i : Nat),
    ∀ ch ∈ pchainsItems xs i, ch ≠ [] := by
  intro xs
  induction xs with
  | nil => intro i ch hch; simp [pchainsItems] at hch
  | cons x rest IH =>
    intro i ch hch
    rcases List.mem_append.mp hch with h | h
    · by_cases ho : isObjectLike x = true
      · rw [if_pos ho] at h
        obtain ⟨ch', _, hch'⟩ := List.mem_map.mp h
        exact hch' ▸ (by simp)
      · rw [if_neg ho] at h
        have h' := List.mem_singleton.mp h
        exact h' ▸ (by simp)
    · exact IH (i + 1) ch h

theorem pchains_ne_nil : ∀ v : JSVal, ∀ ch ∈ pchains v, ch ≠ [] := by
  intro v
  cases v with
  | vObj fields => exact pchainsFields_ne_nil fields
  | vArr xs => exact pchainsItems_ne_nil xs 0
  | vNull => intro ch hch; simp [pchains] at hch
  | vBool b => intro ch hch; simp [pchains] at hch
  | vNum n => intro ch hch; simp [pchains] at hch
  | vStr s => intro ch hch; simp [pchains] at hch

/-- The file name attached by the object branch: key plus extension. -/
theorem objFileName_good {k : String} (hk1 : k ≠ "") (hk2 : hasSlash k = false)
    (b : Bool) :
    (k ++ "." ++ (if b then ("txt" : String) else "json")) ≠ "" ∧
    hasSlash (k ++ "." ++ (if b then ("txt" : String) else "json")) = false := by
  constructor
  · exact append_mid_ne_empty k "." _ (by decide)
  · rw [hasSlash_append, hasSlash_append, hk2]
    have h1 : hasSlash "." = false := by decide
    have h2 : hasSlash (if b then ("txt" : String) else "json") = false := by
      cases b <;> decide
    simp [h1, h2]

theorem itemName_good (i : Nat) :
    ("item_" ++ toDecimal i) ≠ "" ∧ hasSlash ("item_" ++ toDecimal i) = false := by
  constructor
  · exact str_append_ne_empty_left "item_" (toDecimal i) (by decide)
  · rw [hasSlash_append, toDecimal_no_slash]
    decide

theorem itemFileName_good (i : Nat) :
    ("item_" ++ toDecimal i ++ ".txt") ≠ "" ∧
    hasSlash ("item_" ++ toDecimal i ++ ".txt") = false := by
  constructor
  · exact str_append_ne_empty_left _ ".txt"
      ((str_ne_empty_iff _).mp (itemName_good i).1)
  · rw [hasSlash_append, (itemName_good i).2]
    decide

theorem pchainsFields_good : ∀ fields : List (String × JSVal),
    (∀ kv ∈ fields, wfKeysB kv.2 = true →
      ∀ ch ∈ pchains kv.2, ∀ s ∈ ch, s ≠ "" ∧ hasSlash s = false) →
    wfFieldsB fields = true →
    ∀ ch ∈ pchainsFields fields, ∀ s ∈ ch, s ≠ "" ∧ hasSlash s = false := by
  intro fields
  induction fields with
  | nil => intro _ _ ch hch; simp [pchainsFields] at hch
  | cons kv rest IH =>
    obtain ⟨k, w⟩ := kv
    intro H hwf ch hch s hs
    obtain ⟨⟨hk1, hk2, hkw⟩, hrest⟩ := wfFieldsB_cons.mp hwf
    rcases List.mem_append.mp hch with h | h
    · by_cases ho : isObjectLike w = true
      · rw [if_pos ho] at h
        obtain ⟨ch', hch', hcons⟩ := List.mem_map.mp h
        rw [← hcons] at hs
        rcases List.mem_cons.mp hs with h' | h'
        · exact h' ▸ ⟨hk1, hk2⟩
        · exact H (k, w) (List.mem_cons_self _ _) hkw ch' hch' s h'
      · rw [if_neg ho] at h
        rw [List.mem_singleton.mp h] at hs
        rw [List.mem_singleton.mp hs]
        exact objFileName_good hk1 hk2 _
    · exact IH (fun kv hm => H kv (List.mem_cons_of_mem _ hm)) hrest ch h s hs

theorem pchainsItems_good : ∀ xs : List JSVal,
    (∀ x ∈ xs, wfKeysB x = true →
      ∀ ch ∈ pchains x, ∀ s ∈ ch, s ≠ "" ∧ hasSlash s = false) →
    wfItemsB xs = true →
    ∀ i, ∀ ch ∈ pchainsItems xs i, ∀ s ∈ ch, s ≠ "" ∧ hasSlash s = false := by
  intro xs
  induction xs with
  | nil => intro _ _ i ch hch; simp [pchainsItems] at hch
  | cons x rest IH =>
    intro H hwf i ch hch s hs
    obtain ⟨hx, hrest⟩ := wfItemsB_cons.mp hwf
    rcases List.mem_append.mp hch with h | h
    · by_cases ho : isObjectLike x = true
      · rw [if_pos ho] at h
        obtain ⟨ch', hch', hcons⟩ := List.mem_map.mp h
        rw [← hcons] at hs
        rcases List.mem_cons.mp hs with h' | h'
        · exact h' ▸ itemName_good i
        · exact H x (List.mem_cons_self _ _) hx ch' hch' s h'
      · rw [if_neg ho] at h
        rw [List.mem_singleton.mp h] at hs
        rw [List.mem_singleton.mp hs]
        exact itemFileName_good i
    · exact IH (fun x hm => H x (List.mem_cons_of_mem _ hm)) hrest (i + 1) ch h s hs

theorem pchains_good : ∀ v : JSVal, wfKeysB v = true →
    ∀ ch ∈ pchains v, ∀ s ∈ ch, s ≠ "" ∧ hasSlash s = false := by
  refine strongInd (fun v ih => ?_)
  intro hwf
  cases v with
  | vObj fields =>
    have h2 : wfFieldsB fields = true := by
      have := hwf
      simp only [wfKeysB, Bool.and_eq_true] at this
      exact this.2
    exact pchainsFields_good fields
      (fun kv hm hkw => ih kv.2 (sizeOf_snd_lt_vObj hm) hkw) h2
  | vArr xs =>
    have h2 : wfItemsB xs = true := hwf
    exact pchainsItems_good xs
      (fun x hm hx => ih x (sizeOf_elem_lt_vArr hm) hx) h2 0
  | vNull => intro ch hch; simp [pchains] at hch
  | vBool b => intro ch hch; simp [pchains] at hch
  | vNum n => intro ch hch; simp [pchains] at hch
  | vStr s => intro ch hch; simp [pchains] at hch

theorem pchainsFields_shape : ∀ fields : List (String × JSVal),
    ∀ ch ∈ pchainsFields fields, ∃ kv ∈ fields,
      (∃ ch', ch' ≠ [] ∧ ch = kv.1 :: ch') ∨
      ch = [kv.1 ++ "." ++ (if isLongString kv.2 then "txt" else "json")] := by
  intro fields
  induction fields with
  | nil => intro ch hch; simp [pchainsFields] at hch
  | cons kv rest IH =>
    obtain ⟨k, w⟩ := kv
    intro ch hch
    rcases List.mem_append.mp hch with h | h
    · by_cases ho : isObjectLike w = true
      · rw [if_pos ho] at h
        obtain ⟨ch', hch', hcons⟩ := List.mem_map.mp h
        exact ⟨(k, w), List.mem_cons_self _ _,
          Or.inl ⟨ch', pchains_ne_nil w ch' hch', hcons.symm⟩⟩
      · rw [if_neg ho] at h
        exact ⟨(k, w), List.mem_cons_self _ _, Or.inr (List.mem_singleton.mp h)⟩
    · obtain ⟨kv', hm', hform⟩ := IH ch h
      exact ⟨kv', List.mem_cons_of_mem _ hm', hform⟩

theorem pchainsItems_shape : ∀ (xs : List JSVal) (i : Nat),
    ∀ ch ∈ pchainsItems xs i, ∃ j, i ≤ j ∧
      ((∃ ch', ch' ≠ [] ∧ ch = ("item_" ++ toDecimal j) :: ch') ∨
       ch = ["item_" ++ toDecimal j ++ ".txt"]) := by
  intro xs
  induction xs with
  | nil => intro i ch hch; simp [pchainsItems] at hch
  | cons x rest IH =>
    intro i ch hch
    rcases List.mem_append.mp hch with h | h
    · by_cases ho : isObjectLike x = true
      · rw [if_pos ho] at h
        obtain ⟨ch', hch', hcons⟩ := List.mem_map.mp h
        exact ⟨i, le_refl i, Or.inl ⟨ch', pchains_ne_nil x ch' hch', hcons.symm⟩⟩
      · rw [if_neg ho] at h
        exact ⟨i, le_refl i, Or.inr (List.mem_singleton.mp h)⟩
    · obtain ⟨j, hj, hform⟩ := IH (i + 1) ch h
      exact ⟨j, by omega, hform⟩

theorem entry_ext_inj {k1 k2 e1 e2 : String}
    (he1 : e1 = "txt" ∨ e1 = "json") (he2 : e2 = "txt" ∨ e2 = "json")
    (h : k1 ++ "." ++ e1 = k2 ++ "." ++ e2) : k1 = k2 := by
  rcases he1 with rfl | rfl <;> rcases he2 with rfl | rfl
  · exact str_append_right_cancel (str_append_right_cancel h)
  · exfalso
    rw [String.append_assoc, String.append_assoc] at h
    exact ext_json_ne_txt k2 k1 h.symm
  · exfalso
    rw [String.append_assoc, String.append_assoc] at h
    exact ext_json_ne_txt k1 k2 h
  · exact str_append_right_cancel (str_append_right_cancel h)

theorem extOf_cases (b : Bool) :
    (if b then ("txt" : String) else "json") = "txt" ∨
    (if b then ("txt" : String) else "json") = "json" := by
  cases b <;> simp

theorem itemName_inj {i j : Nat}
    (h : ("item_" : String) ++ toDecimal i = "item_" ++ toDecimal j) : i = j :=
  toDecimal_inj (str_append_left_cancel h)

theorem pchainsFields_nodup : ∀ fields : List (String × JSVal),
    (∀ kv ∈ fields, wfKeysB kv.2 = true → (pchains kv.2).Nodup) →
    nodupKeysB fields = true → wfFieldsB fields = true →
    (pchainsFields fields).Nodup := by
  intro fields
  induction fields with
  | nil => intro _ _ _; simp [pchainsFields]
  | cons kv rest IH =>
    obtain ⟨k, w⟩ := kv
    intro H hnod hwf
    obtain ⟨hkdist, hnodrest⟩ := nodupKeysB_cons.mp hnod
    obtain ⟨⟨hk1, hk2, hkw⟩, hwfrest⟩ := wfFieldsB_cons.mp hwf
    show ((if isObjectLike w then (pchains w).map (fun ch => k :: ch)
        else [[k ++ "." ++ (if isLongString w then "txt" else "json")]]) ++
        pchainsFields rest).Nodup
    rw [List.nodup_append]
    refine ⟨?_, IH (fun kv hm => H kv (List.mem_cons_of_mem _ hm)) hnodrest hwfrest, ?_⟩
    · by_cases ho : isObjectLike w = true
      · rw [if_pos ho]
        exact (H (k, w) (List.mem_cons_self _ _) hkw).map_on
          (fun x _ y _ hxy => by injection hxy)
      · rw [if_neg ho]
        simp
    · intro ch hch1 hch2
      obtain ⟨kv', hm', hform'⟩ := pchainsFields_shape rest ch hch2
      have hne : kv'.1 ≠ k := hkdist kv' hm'
      by_cases ho : isObjectLike w = true
      · rw [if_pos ho] at hch1
        obtain ⟨ch', hch', hcons⟩ := List.mem_map.mp hch1
        rcases hform' with ⟨ch'', hne'', hform''⟩ | hfile
        · rw [← hcons] at hform''
          injection hform'' with h1 _
          exact hne h1.symm
        · rw [← hcons] at hfile
          injection hfile with _ h2
          exact pchains_ne_nil w ch' hch' h2
      · rw [if_neg ho] at hch1
        rw [List.mem_singleton.mp hch1] at hform'
        rcases hform' with ⟨ch'', hne'', hform''⟩ | hfile
        · injection hform'' with _ h2
          exact hne'' h2.symm
        · injection hfile with h1 _
          exact hne (entry_ext_inj (extOf_cases _) (extOf_cases _) h1).symm

theorem pchainsItems_nodup : ∀ xs : List JSVal,
    (∀ x ∈ xs, wfKeysB x = true → (pchains x).Nodup) →
    wfItemsB xs = true →
    ∀ i, (pchainsItems xs i).Nodup := by
  intro xs
  induction xs with
  | nil => intro _ _ i; simp [pchainsItems]
  | cons x rest IH =>
    intro H hwf i
    obtain ⟨hx, hrest⟩ := wfItemsB_cons.mp hwf
    show ((if isObjectLike x then (pchains x).map (fun ch => ("item_" ++ toDecimal i) :: ch)
        else [["item_" ++ toDecimal i ++ ".txt"]]) ++ pchainsItems rest (i + 1)).Nodup
    rw [List.nodup_append]
    refine ⟨?_, IH (fun x hm => H x (List.mem_cons_of_mem _ hm)) hrest (i + 1), ?_⟩
    · by_cases ho : isObjectLike x = true
      · rw [if_pos ho]
        exact (H x (List.mem_cons_self _ _) hx).map_on
          (fun a _ b _ hab => by injection hab)
      · rw [if_neg ho]
        simp
    · intro ch hch1 hch2
      obtain ⟨j, hj, hform'⟩ := pchainsItems_shape rest (i + 1) ch hch2
      have hij : i ≠ j := by omega
      by_cases ho : isObjectLike x = true
      · rw [if_pos ho] at hch1
        obtain ⟨ch', hch', hcons⟩ := List.mem_map.mp hch1
        rcases hform' with ⟨ch'', hne'', hform''⟩ | hfile
        · rw [← hcons] at hform''
          injection hform'' with h1 _
          exact hij (itemName_inj h1)
        · rw [← hcons] at hfile
          injection hfile with _ h2
          exact pchains_ne_nil x ch' hch' h2
      · rw [if_neg ho] at hch1
        rw [List.mem_singleton.mp hch1] at hform'
        rcases hform' with ⟨ch'', hne'', hform''⟩ | hfile
        · injection hform'' with _ h2
          exact hne'' h2.symm
        · injection hfile with h1 _
          exact hij (itemName_inj (str_append_right_cancel h1))

theorem pchains_nodup : ∀ v : JSVal, wfKeysB v = true → (pchains v).Nodup := by
  refine strongInd (fun v ih => ?_)
  intro hwf
  cases v with
  | vObj fields =>
    have h12 : nodupKeysB fields = true ∧ wfFieldsB fields = true := by
      have := hwf
      simpa only [wfKeysB, Bool.and_eq_true] using this
    exact pchainsFields_nodup fields
      (fun kv hm hkw => ih kv.2 (sizeOf_snd_lt_vObj hm) hkw) h12.1 h12.2
  | vArr xs =>
    exact pchainsItems_nodup xs
      (fun x hm hx => ih x (sizeOf_elem_lt_vArr hm) hx) hwf 0
  | vNull => simp [pchains]
  | vBool b => simp [pchains]
  | vNum n => simp [pchains]
  | vStr s => simp [pchains]

/-! ### The paths emitted by `processObject`, as joined chains -/

theorem poFields_paths : ∀ (fields : List (String × JSVal)) (cur : String), cur ≠ "" →
    (∀ kv ∈ fields, isObjectLike kv.2 = true → ∀ cur' : String, cur' ≠ "" →
      (processObject kv.2 cur').map FileEntry.path =
        (pchains kv.2).map (fun ch => cur' ++ "/" ++ joinChain ch)) →
    (poFields fields cur).map FileEntry.path =
      (pchainsFields fields).map (fun ch => cur ++ "/" ++ joinChain ch) := by
  intro fields
  induction fields with
  | nil => intro cur _ _; rfl
  | cons kv rest IH =>
    obtain ⟨k, w⟩ := kv
    intro cur hcur H
    have hpj : pjoin cur k = cur ++ "/" ++ k := by simp [pjoin, hcur]
    by_cases ho : isObjectLike w = true
    · rw [show (poFields ((k, w) :: rest) cur).map FileEntry.path =
          (processObject w (pjoin cur k)).map FileEntry.path ++
            (poFields rest cur).map FileEntry.path from by simp [poFields, ho]]
      rw [show pchainsFields ((k, w) :: rest) =
          (pchains w).map (fun ch => k :: ch) ++ pchainsFields rest from by
        simp [pchainsFields, ho]]
      rw [List.map_append, List.map_map]
      rw [hpj, H (k, w) (List.mem_cons_self _ _) ho (cur ++ "/" ++ k)
        (append_mid_ne_empty cur "/" k (by decide))]
      rw [IH cur hcur (fun kv hm => H kv (List.mem_cons_of_mem _ hm))]
      congr 1
      apply List.map_congr_left
      intro ch hch
      have hne := pchains_ne_nil w ch hch
      show cur ++ "/" ++ k ++ "/" ++ joinChain ch = cur ++ "/" ++ joinChain (k :: ch)
      rw [joinChain_cons k hne]
      simp [String.append_assoc]
    · have ho' : isObjectLike w = false := by simpa using ho
      rw [show (poFields ((k, w) :: rest) cur).map FileEntry.path =
          (pjoin cur k ++ "." ++ (if isLongString w then "txt" else "json")) ::
            (poFields rest cur).map FileEntry.path from by simp [poFields, ho']]
      rw [show pchainsFields ((k, w) :: rest) =
          [k ++ "." ++ (if isLongString w then "txt" else "json")] :: pchainsFields rest from by
        simp [pchainsFields, ho']]
      rw [List.map_cons]
      rw [IH cur hcur (fun kv hm => H kv (List.mem_cons_of_mem _ hm))]
      congr 1
      rw [hpj]
      show cur ++ "/" ++ k ++ "." ++ (if isLongString w then "txt" else "json") =
        cur ++ "/" ++ (k ++ "." ++ (if isLongString w then "txt" else "json"))
      simp [String.append_assoc]

theorem poItems_paths : ∀ (xs : List JSVal) (i : Nat) (cur : String),
    (∀ x ∈ xs, isObjectLike x = true → ∀ cur' : String, cur' ≠ "" →
      (processObject x cur').map FileEntry.path =
        (pchains x).map (fun ch => cur' ++ "/" ++ joinChain ch)) →
    (poItems xs i cur).map FileEntry.path =
      (pchainsItems xs i).map (fun ch => cur ++ "/" ++ joinChain ch) := by
  intro xs
  induction xs with
  | nil => intro i cur _; rfl
  | cons x rest IH =>
    intro i cur H
    have hsplit : ("/item_" : String) = "/" ++ "item_" := rfl
    by_cases ho : isObjectLike x = true
    · rw [show (poItems (x :: rest) i cur).map FileEntry.path =
          (processObject x (cur ++ "/item_" ++ toDecimal i)).map FileEntry.path ++
            (poItems rest (i + 1) cur).map FileEntry.path from by simp [poItems, ho]]
      rw [show pchainsItems (x :: rest) i =
          (pchains x).map (fun ch => ("item_" ++ toDecimal i) :: ch) ++
            pchainsItems rest (i + 1) from by
        simp [pchainsItems, ho]]
      rw [List.map_append, List.map_map]
      rw [H x (List.mem_cons_self _ _) ho (cur ++ "/item_" ++ toDecimal i)
        (append_mid_ne_empty cur "/item_" (toDecimal i) (by decide))]
      rw [IH (i + 1) cur (fun x hm => H x (List.mem_cons_of_mem _ hm))]
      congr 1
      apply List.map_congr_left
      intro ch hch
      have hne := pchains_ne_nil x ch hch
      show cur ++ "/item_" ++ toDecimal i ++ "/" ++ joinChain ch =
        cur ++ "/" ++ joinChain (("item_" ++ toDecimal i) :: ch)
      rw [joinChain_cons _ hne]
      simp only [String.append_assoc]
      rw [hsplit, String.append_assoc]
    · have ho' : isObjectLike x = false := by simpa using ho
      rw [show (poItems (x :: rest) i cur).map FileEntry.path =
          (cur ++ "/item_" ++ toDecimal i ++ ".txt") ::
            (poItems rest (i + 1) cur).map FileEntry.path from by simp [poItems, ho']]
      rw [show pchainsItems (x :: rest) i =
          ["item_" ++ toDecimal i ++ ".txt"] :: pchainsItems rest (i + 1) from by
        simp [pchainsItems, ho']]
      rw [List.map_cons]
      rw [IH (i + 1) cur (fun x hm => H x (List.mem_cons_of_mem _ hm))]
      congr 1
      show cur ++ "/item_" ++ toDecimal i ++ ".txt" =
        cur ++ "/" ++ joinChain ["item_" ++ toDecimal i ++ ".txt"]
      rw [show joinChain ["item_" ++ toDecimal i ++ ".txt"] =
          "item_" ++ toDecimal i ++ ".txt" from rfl]
      simp only [String.append_assoc]
      rw [hsplit, String.append_assoc]

theorem processObject_paths : ∀ v : JSVal, isObjectLike v = true →
    ∀ cur : String, cur ≠ "" →
    (processObject v cur).map FileEntry.path =
      (pchains v).map (fun ch => cur ++ "/" ++ joinChain ch) := by
  refine strongInd (fun v ih => ?_)
  intro ho cur hcur
  cases v with
  | vObj fields =>
    exact poFields_paths fields cur hcur
      (fun kv hm ho' cur' hcur' => ih kv.2 (sizeOf_snd_lt_vObj hm) ho' cur' hcur')
  | vArr xs =>
    exact poItems_paths xs 0 cur
      (fun x hm ho' cur' hcur' => ih x (sizeOf_elem_lt_vArr hm) ho' cur' hcur')
  | vNull => simp [isObjectLike] at ho
  | vBool b => simp [isObjectLike] at ho
  | vNum n => simp [isObjectLike] at ho
  | vStr s => simp [isObjectLike] at ho

theorem poFields_paths_root : ∀ fields : List (String × JSVal),
    wfFieldsB fields = true →
    (poFields fields "").map FileEntry.path = (pchainsFields fields).map joinChain := by
  intro fields
  induction fields with
  | nil => intro _; rfl
  | cons kv rest IH =>
    obtain ⟨k, w⟩ := kv
    intro hwf
    obtain ⟨⟨hk1, _, _⟩, hrest⟩ := wfFieldsB_cons.mp hwf
    have hpj : pjoin "" k = k := by simp [pjoin]
    by_cases ho : isObjectLike w = true
    · rw [show (poFields ((k, w) :: rest) "").map FileEntry.path =
          (processObject w (pjoin "" k)).map FileEntry.path ++
            (poFields rest "").map FileEntry.path from by simp [poFields, ho]]
      rw [show pchainsFields ((k, w) :: rest) =
          (pchains w).map (fun ch => k :: ch) ++ pchainsFields rest from by
        simp [pchainsFields, ho]]
      rw [List.map_append, List.map_map]
      rw [hpj, processObject_paths w ho k hk1, IH hrest]
      congr 1
      apply List.map_congr_left
      intro ch hch
      exact (joinChain_cons k (pchains_ne_nil w ch hch)).symm
    · have ho' : isObjectLike w = false := by simpa using ho
      rw [show (poFields ((k, w) :: rest) "").map FileEntry.path =
          (pjoin "" k ++ "." ++ (if isLongString w then "txt" else "json")) ::
            (poFields rest "").map FileEntry.path from by simp [poFields, ho']]
      rw [show pchainsFields ((k, w) :: rest) =
          [k ++ "." ++ (if isLongString w then "txt" else "json")] :: pchainsFields rest from by
        simp [pchainsFields, ho']]
      rw [List.map_cons, IH hrest, hpj]
      rfl

/-! ### Keys of the `createFileTree` object -/

theorem upsertStr_keys (acc : List (String × String)) (k v : String) :
    (upsertStr acc k v).map Prod.fst =
      if k ∈ acc.map Prod.fst then acc.map Prod.fst else acc.map Prod.fst ++ [k] := by
  induction acc with
  | nil => simp [upsertStr]
  | cons kv rest IH =>
    obtain ⟨k0, v0⟩ := kv
    by_cases h : (k0 == k) = true
    · have hk : k0 = k := by simpa using h
      subst hk
      simp [upsertStr, h]
    · have hk : k0 ≠ k := by simpa using h
      rw [show upsertStr ((k0, v0) :: rest) k v = (k0, v0) :: upsertStr rest k v from by
        simp [upsertStr, h]]
      simp only [List.map_cons, IH]
      by_cases hm : k ∈ rest.map Prod.fst
      · rw [if_pos hm, if_pos (by simp [hm])]
      · rw [if_neg hm, if_neg (by simp [hm, Ne.symm hk])]
        simp

theorem upsertStr_keys_nodup {acc : List (String × String)} (k v : String)
    (h : (acc.map Prod.fst).Nodup) : ((upsertStr acc k v).map Prod.fst).Nodup := by
  rw [upsertStr_keys]
  by_cases hm : k ∈ acc.map Prod.fst
  · rw [if_pos hm]; exact h
  · rw [if_neg hm]
    rw [List.nodup_append]
    refine ⟨h, by simp, ?_⟩
    intro a ha hb
    rw [List.mem_singleton.mp hb] at ha
    exact hm ha

theorem foldl_upsertStr_nodup : ∀ (ems : List (String × String)) (acc : List (String × String)),
    (acc.map Prod.fst).Nodup →
    ((ems.foldl (fun acc pc => upsertStr acc pc.1 pc.2) acc).map Prod.fst).Nodup := by
  intro ems
  induction ems with
  | nil => intro acc h; exact h
  | cons pc rest IH =>
    intro acc h
    exact IH _ (upsertStr_keys_nodup pc.1 pc.2 h)

/-! ### Claim C7 -/

/-- Claim C7, counterexample: for `{"a/b": 1, "a": {"b": 2}}` — whose keys
contain a `/` — `generateFileStructure` emits the path `a/b.json` twice. -/
theorem claim7_counterexample :
    (generateFileStructure (vObj [("a/b", vNum 1), ("a", vObj [("b", vNum 2)])])).map
        FileEntry.path = ["a/b.json", "a/b.json"] ∧
    ¬ ((generateFileStructure (vObj [("a/b", vNum 1), ("a", vObj [("b", vNum 2)])])).map
        FileEntry.path).Nodup :=
  ⟨rfl, by decide⟩

/-- Claim C7 (amended): the mapping built by `createFileTree` has pairwise
distinct keys for every input (object-assignment semantics: a colliding
path silently overwrites), and the path list produced by
`generateFileStructure` — which does not sanitize keys — has no duplicate
entries provided every object key throughout the input is nonempty and
`/`-free (with sibling keys distinct, the base invariant of JSON objects).
Index-based naming keeps array-derived siblings distinct unconditionally. -/
theorem claim7_no_duplicate_paths :
    (∀ (data : JSVal) (base : String),
      ((createFileTree data base).map Prod.fst).Nodup) ∧
    (∀ v : JSVal, wfKeysB v = true →
      ((generateFileStructure v).map FileEntry.path).Nodup) := by
  constructor
  · intro data base
    exact foldl_upsertStr_nodup (cftEmit data base) [] (by simp)
  · intro v hwf
    cases v with
    | vObj fields =>
      have h12 : nodupKeysB fields = true ∧ wfFieldsB fields = true := by
        simpa only [wfKeysB, Bool.and_eq_true] using hwf
      rw [show generateFileStructure (vObj fields) = poFields fields "" from rfl]
      rw [poFields_paths_root fields h12.2]
      apply List.Nodup.map_on
      · intro c1 h1 c2 h2 heq
        exact joinChain_inj (pchainsFields_ne_nil fields c1 h1)
          (pchainsFields_ne_nil fields c2 h2)
          (fun s hs => (pchains_good (vObj fields) hwf c1 h1 s hs).2)
          (fun s hs => (pchains_good (vObj fields) hwf c2 h2 s hs).2) heq
      · exact pchains_nodup (vObj fields) hwf
    | vArr xs =>
      rw [show generateFileStructure (vArr xs) = poItems xs 0 "" from rfl]
      rw [poItems_paths xs 0 ""
        (fun x hm ho cur' hcur' =>
          processObject_paths x ho cur' hcur')]
      apply List.Nodup.map_on
      · intro c1 h1 c2 h2 heq
        have heq' : joinChain c1 = joinChain c2 :=
          str_append_left_cancel (a := "" ++ "/") (by
            rwa [String.append_assoc, String.append_assoc] at heq)
        exact joinChain_inj (pchainsItems_ne_nil xs 0 c1 h1)
          (pchainsItems_ne_nil xs 0 c2 h2)
          (fun s hs => (pchains_good (vArr xs) hwf c1 h1 s hs).2)
          (fun s hs => (pchains_good (vArr xs) hwf c2 h2 s hs).2) heq'
      · exact pchains_nodup (vArr xs) hwf
    | vNull => simp [generateFileStructure, processObject]
    | vBool b => simp [generateFileStructure, processObject]
    | vNum n => simp [generateFileStructure, processObject]
    | vStr s => simp [generateFileStructure, processObject]

/-- Claim C7, witness: the slash-free input `{"a": {"b": 1}, "c": 2}`. -/
theorem claim7_witness :
    ((generateFileStructure (vObj [("a", vObj [("b", vNum 1)]), ("c", vNum 2)])).map
      FileEntry.path).Nodup :=
  claim7_no_duplicate_paths.2 (vObj [("a", vObj [("b", vNum 1)]), ("c", vNum 2)])
    (by decide)

/-! ## Claim C6: structure round-trip through `createTreeFromPaths`

The proof vocabulary: `fchains t` are the segment chains of the file
leaves of a tree object; `getFilePaths` emits exactly their `/`-joins, and
`createTreeFromPaths` rebuilds a tree whose chain set is the input chain
set whenever the chains are pairwise prefix-free — which the chains of a
well-formed tree are. -/

theorem fchainsFields_eq_entry : ∀ fields : List (String × JSVal),
    fchainsFields fields = fields.flatMap entryChains := by
  intro fields
  induction fields with
  | nil => rfl
  | cons kv rest IH =>
    obtain ⟨k, w⟩ := kv
    show (if isDirLike w then (fchains w).map (fun ch => k :: ch) else [[k]]) ++
        fchainsFields rest = _
    rw [List.flatMap_cons, IH]
    rfl

theorem mem_fchainsFields {fields : List (String × JSVal)} {b : List String} :
    b ∈ fchainsFields fields ↔ ∃ kv ∈ fields, b ∈ entryChains kv := by
  rw [fchainsFields_eq_entry]
  exact List.mem_flatMap

theorem fchains_vObj (fields : List (String × JSVal)) :
    fchains (vObj fields) = fchainsFields fields := rfl

theorem fchainsFields_ne_nil : ∀ fields : List (String × JSVal),
    ∀ ch ∈ fchainsFields fields, ch ≠ [] := by
  intro fields ch hch
  obtain ⟨kv, _, hkv⟩ := mem_fchainsFields.mp hch
  unfold entryChains at hkv
  by_cases hd : isDirLike kv.2 = true
  · rw [if_pos hd] at hkv
    obtain ⟨ch', _, hch'⟩ := List.mem_map.mp hkv
    exact hch' ▸ (by simp)
  · rw [if_neg hd] at hkv
    exact List.mem_singleton.mp hkv ▸ (by simp)

theorem ChainPre_cons {k : String} {a b : List String} :
    ChainPre (k :: a) (k :: b) ↔ ChainPre a b := by
  unfold ChainPre
  constructor
  · rintro ⟨r, hr⟩
    injection hr with _ h2
    exact ⟨r, h2⟩
  · rintro ⟨r, hr⟩
    exact ⟨r, by rw [List.cons_append, hr]⟩

theorem NoPre_cons {k : String} {a b : List String} :
    NoPre (k :: a) (k :: b) ↔ NoPre a b := by
  unfold NoPre
  rw [ChainPre_cons, ChainPre_cons]

theorem ChainPre_head {k k' : String} {a b : List String}
    (h : ChainPre (k :: a) (k' :: b)) : k = k' := by
  obtain ⟨r, hr⟩ := h
  injection hr with h1 _
  exact h1.symm

theorem NoPre_of_head_ne {k k' : String} {a b : List String} (h : k ≠ k') :
    NoPre (k :: a) (k' :: b) :=
  ⟨fun hp => h (ChainPre_head hp), fun hp => h (ChainPre_head hp).symm⟩

theorem ChainPre_self (a : List String) : ChainPre a a := ⟨[], by simp⟩

/-! ### `upsertFields` and `find?` facts -/

theorem find?_eq_some_key {fields : List (String × JSVal)} {k : String}
    {kv : String × JSVal}
    (h : fields.find? (fun kv => kv.1 == k) = some kv) : kv.1 = k ∧ kv ∈ fields :=
  ⟨by simpa using List.find?_some h, List.mem_of_find?_eq_some h⟩

theorem find?_eq_none_keys {fields : List (String × JSVal)} {k : String}
    (h : fields.find? (fun kv => kv.1 == k) = none) : ∀ kv ∈ fields, kv.1 ≠ k := by
  intro kv hm
  have := List.find?_eq_none.mp h kv hm
  simpa using this

theorem upsertFields_of_fresh : ∀ (fields : List (String × JSVal)) (k : String) (w : JSVal),
    (∀ kv ∈ fields, kv.1 ≠ k) → upsertFields fields k w = fields ++ [(k, w)] := by
  intro fields k w h
  induction fields with
  | nil => rfl
  | cons kv rest IH =>
    obtain ⟨k0, v0⟩ := kv
    have hk0 : k0 ≠ k := h (k0, v0) (List.mem_cons_self _ _)
    rw [show upsertFields ((k0, v0) :: rest) k w = (k0, v0) :: upsertFields rest k w from by
      simp [upsertFields, hk0]]
    rw [IH (fun kv hm => h kv (List.mem_cons_of_mem _ hm))]
    rfl

theorem mem_upsertFields : ∀ (fields : List (String × JSVal)) (k : String) (w : JSVal),
    nodupKeysB fields = true →
    ∀ kv' : String × JSVal,
      kv' ∈ upsertFields fields k w ↔ (kv' ∈ fields ∧ kv'.1 ≠ k) ∨ kv' = (k, w) := by
  intro fields
  induction fields with
  | nil =>
    intro k w _ kv'
    simp [upsertFields]
  | cons kv rest IH =>
    obtain ⟨k0, v0⟩ := kv
    intro k w hnod kv'
    obtain ⟨hdist, hnodrest⟩ := nodupKeysB_cons.mp hnod
    by_cases h : (k0 == k) = true
    · have hk : k0 = k := by simpa using h
      subst hk
      rw [show upsertFields ((k0, v0) :: rest) k0 w = (k0, w) :: rest from by
        simp [upsertFields]]
      simp only [List.mem_cons]
      constructor
      · rintro (h' | h')
        · exact Or.inr h'
        · exact Or.inl ⟨Or.inr h', hdist kv' h'⟩
      · rintro (⟨h1, h2⟩ | h')
        · rcases h1 with h1 | h1
          · exact absurd (congrArg Prod.fst h1) h2
          · exact Or.inr h1
        · exact Or.inl h'
    · have hk : k0 ≠ k := by simpa using h
      rw [show upsertFields ((k0, v0) :: rest) k w = (k0, v0) :: upsertFields rest k w from by
        simp [upsertFields, h]]
      simp only [List.mem_cons, IH k w hnodrest kv']
      constructor
      · rintro (h' | ⟨h1, h2⟩ | h')
        · exact Or.inl ⟨Or.inl h', h' ▸ hk⟩
        · exact Or.inl ⟨Or.inr h1, h2⟩
        · exact Or.inr h'
      · rintro (⟨h1, h2⟩ | h')
        · rcases h1 with h1 | h1
          · exact Or.inl h1
          · exact Or.inr (Or.inl ⟨h1, h2⟩)
        · exact Or.inr (Or.inr h')

theorem upsertFields_keys : ∀ (fields : List (String × JSVal)) (k : String) (w : JSVal),
    (upsertFields fields k w).map Prod.fst =
      if k ∈ fields.map Prod.fst then fields.map Prod.fst
      else fields.map Prod.fst ++ [k] := by
  intro fields
  induction fields with
  | nil => intro k w; simp [upsertFields]
  | cons kv rest IH =>
    obtain ⟨k0, v0⟩ := kv
    intro k w
    by_cases h : (k0 == k) = true
    · have hk : k0 = k := by simpa using h
      subst hk
      simp [upsertFields]
    · have hk : k0 ≠ k := by simpa using h
      rw [show upsertFields ((k0, v0) :: rest) k w = (k0, v0) :: upsertFields rest k w from by
        simp [upsertFields, h]]
      simp only [List.map_cons, IH k w]
      by_cases hm : k ∈ rest.map Prod.fst
      · rw [if_pos hm, if_pos (by simp [hm])]
      · rw [if_neg hm, if_neg (by simp [hm, Ne.symm hk])]
        simp

theorem nodupKeysB_iff : ∀ fields : List (String × JSVal),
    nodupKeysB fields = true ↔ (fields.map Prod.fst).Nodup := by
  intro fields
  induction fields with
  | nil => simp [nodupKeysB]
  | cons kv rest IH =>
    obtain ⟨k, v⟩ := kv
    rw [nodupKeysB_cons]
    simp only [List.map_cons, List.nodup_cons, IH]
    constructor
    · rintro ⟨h1, h2⟩
      refine ⟨?_, h2⟩
      intro hm
      obtain ⟨kv', hm', he⟩ := List.mem_map.mp hm
      exact h1 kv' hm' he
    · rintro ⟨h1, h2⟩
      exact ⟨fun kv' hm' he => h1 (List.mem_map.mpr ⟨kv', hm', he⟩), h2⟩

theorem nodupKeysB_upsert {fields : List (String × JSVal)} {k : String} {w : JSVal}
    (h : nodupKeysB fields = true) : nodupKeysB (upsertFields fields k w) = true := by
  rw [nodupKeysB_iff] at h ⊢
  rw [upsertFields_keys]
  by_cases hm : k ∈ fields.map Prod.fst
  · rw [if_pos hm]; exact h
  · rw [if_neg hm]
    rw [List.nodup_append]
    refine ⟨h, by simp, ?_⟩
    intro a ha hb
    rw [List.mem_singleton.mp hb] at ha
    exact hm ha

/-! ### Shape and goodness of chains -/

theorem fchains_ne_nil : ∀ v : JSVal, ∀ ch ∈ fchains v, ch ≠ [] := by
  intro v
  cases v with
  | vObj fields => exact fchainsFields_ne_nil fields
  | vArr xs => intro ch hch; simp [fchains] at hch
  | vNull => intro ch hch; simp [fchains] at hch
  | vBool b => intro ch hch; simp [fchains] at hch
  | vNum n => intro ch hch; simp [fchains] at hch
  | vStr s => intro ch hch; simp [fchains] at hch

theorem shapeOk_vObj {c : JSVal} {fields : List (String × JSVal)} :
    ShapeOk c (vObj fields) ↔ nodupKeysB fields = true ∧ ShapeFields c fields := by
  rw [ShapeOk]

theorem shapeFields_iff : ∀ (c : JSVal) (fields : List (String × JSVal)),
    ShapeFields c fields ↔ ∀ kv ∈ fields, kv.1 ≠ "" ∧
      (((∃ g, kv.2 = vObj g) ∧ ShapeOk c kv.2 ∧ fchains kv.2 ≠ []) ∨ kv.2 = c) := by
  intro c fields
  induction fields with
  | nil => simp [ShapeFields]
  | cons kv rest IH =>
    obtain ⟨k, v⟩ := kv
    rw [show ShapeFields c ((k, v) :: rest) =
        ((k ≠ "" ∧ ((((∃ g, v = vObj g) ∧ ShapeOk c v ∧ fchains v ≠ [])) ∨ v = c)) ∧
          ShapeFields c rest) from by rw [ShapeFields]]
    rw [IH]
    constructor
    · rintro ⟨h1, h2⟩
      intro kv hm
      rcases List.mem_cons.mp hm with h | h
      · exact h ▸ h1
      · exact h2 kv h
    · intro h
      exact ⟨h (k, v) (List.mem_cons_self _ _),
        fun kv hm => h kv (List.mem_cons_of_mem _ hm)⟩

theorem goodFieldsB_cons {k : String} {v : JSVal} {rest : List (String × JSVal)} :
    goodFieldsB ((k, v) :: rest) = true ↔
      (k ≠ "" ∧ hasSlash k = false ∧ (isDirLike v = true → goodTreeB v = true)) ∧
      goodFieldsB rest = true := by
  by_cases hd : isDirLike v = true <;>
    simp [goodFieldsB, hd, Bool.and_eq_true, bne_iff_ne, Bool.not_eq_true'] <;> tauto

theorem goodTreeB_vObj {fields : List (String × JSVal)} :
    goodTreeB (vObj fields) = true ↔
      nodupKeysB fields = true ∧ goodFieldsB fields = true := by
  simp [goodTreeB, Bool.and_eq_true]

theorem fchainsFields_good : ∀ fields : List (String × JSVal),
    (∀ kv ∈ fields, isDirLike kv.2 = true → goodTreeB kv.2 = true →
      ∀ ch ∈ fchains kv.2, ∀ s ∈ ch, s ≠ "" ∧ hasSlash s = false) →
    goodFieldsB fields = true →
    ∀ ch ∈ fchainsFields fields, ∀ s ∈ ch, s ≠ "" ∧ hasSlash s = false := by
  intro fields
  induction fields with
  | nil => intro _ _ ch hch; simp [fchainsFields] at hch
  | cons kv rest IH =>
    obtain ⟨k, w⟩ := kv
    intro H hwf ch hch s hs
    obtain ⟨⟨hk1, hk2, hdir⟩, hrest⟩ := goodFieldsB_cons.mp hwf
    rcases List.mem_append.mp hch with h | h
    · by_cases hd : isDirLike w = true
      · rw [if_pos hd] at h
        obtain ⟨ch', hch', hcons⟩ := List.mem_map.mp h
        rw [← hcons] at hs
        rcases List.mem_cons.mp hs with h' | h'
        · exact h' ▸ ⟨hk1, hk2⟩
        · exact H (k, w) (List.mem_cons_self _ _) hd (hdir hd) ch' hch' s h'
      · rw [if_neg hd] at h
        rw [List.mem_singleton.mp h] at hs
        rw [List.mem_singleton.mp hs]
        exact ⟨hk1, hk2⟩
    · exact IH (fun kv hm => H kv (List.mem_cons_of_mem _ hm)) hrest ch h s hs

theorem fchains_good : ∀ v : JSVal, goodTreeB v = true →
    ∀ ch ∈ fchains v, ∀ s ∈ ch, s ≠ "" ∧ hasSlash s = false := by
  refine strongInd (fun v ih => ?_)
  intro hwf
  cases v with
  | vObj fields =>
    exact fchainsFields_good fields
      (fun kv hm hd hg => ih kv.2 (sizeOf_snd_lt_vObj hm) hg) (goodTreeB_vObj.mp hwf).2
  | vArr xs => intro ch hch; simp [fchains] at hch
  | vNull => intro ch hch; simp [fchains] at hch
  | vBool b => intro ch hch; simp [fchains] at hch
  | vNum n => intro ch hch; simp [fchains] at hch
  | vStr s => intro ch hch; simp [fchains] at hch

theorem fchainsFields_shape {fields : List (String × JSVal)} {ch : List String}
    (hch : ch ∈ fchainsFields fields) : ∃ kv ∈ fields,
      (isDirLike kv.2 = true ∧ ∃ ch', ch' ∈ fchains kv.2 ∧ ch = kv.1 :: ch') ∨
      (isDirLike kv.2 = false ∧ ch = [kv.1]) := by
  obtain ⟨kv, hm, hkv⟩ := mem_fchainsFields.mp hch
  refine ⟨kv, hm, ?_⟩
  unfold entryChains at hkv
  by_cases hd : isDirLike kv.2 = true
  · rw [if_pos hd] at hkv
    obtain ⟨ch', hch', hcons⟩ := List.mem_map.mp hkv
    exact Or.inl ⟨hd, ch', hch', hcons.symm⟩
  · rw [if_neg hd] at hkv
    exact Or.inr ⟨by simpa using hd, List.mem_singleton.mp hkv⟩

theorem fchainsFields_nopre : ∀ fields : List (String × JSVal),
    (∀ kv ∈ fields, isDirLike kv.2 = true → goodTreeB kv.2 = true →
      List.Pairwise NoPre (fchains kv.2)) →
    nodupKeysB fields = true → goodFieldsB fields = true →
    List.Pairwise NoPre (fchainsFields fields) := by
  intro fields
  induction fields with
  | nil => intro _ _ _; simp [fchainsFields]
  | cons kv rest IH =>
    obtain ⟨k, w⟩ := kv
    intro H hnod hwf
    obtain ⟨hkdist, hnodrest⟩ := nodupKeysB_cons.mp hnod
    obtain ⟨⟨hk1, hk2, hdir⟩, hrest⟩ := goodFieldsB_cons.mp hwf
    show List.Pairwise NoPre
      ((if isDirLike w then (fchains w).map (fun ch => k :: ch) else [[k]]) ++
        fchainsFields rest)
    rw [List.pairwise_append]
    refine ⟨?_, IH (fun kv hm => H kv (List.mem_cons_of_mem _ hm)) hnodrest hrest, ?_⟩
    · by_cases hd : isDirLike w = true
      · rw [if_pos hd]
        rw [List.pairwise_map]
        exact (H (k, w) (List.mem_cons_self _ _) hd (hdir hd)).imp
          (fun hab => NoPre_cons.mpr hab)
      · rw [if_neg hd]
        simp
    · intro a ha b hb
      obtain ⟨kv', hm', hb'⟩ := fchainsFields_shape hb
      have hne : kv'.1 ≠ k := hkdist kv' hm'
      have hbform : ∃ b', b = kv'.1 :: b' := by
        rcases hb' with ⟨_, ch', _, hform⟩ | ⟨_, hform⟩
        · exact ⟨ch', hform⟩
        · exact ⟨[], hform⟩
      obtain ⟨b', hbform⟩ := hbform
      have haform : ∃ a', a = k :: a' := by
        by_cases hd : isDirLike w = true
        · rw [if_pos hd] at ha
          obtain ⟨ch', _, hcons⟩ := List.mem_map.mp ha
          exact ⟨ch', hcons.symm⟩
        · rw [if_neg hd] at ha
          exact ⟨[], List.mem_singleton.mp ha⟩
      obtain ⟨a', haform⟩ := haform
      rw [haform, hbform]
      exact NoPre_of_head_ne (Ne.symm hne)

theorem fchains_nopre : ∀ v : JSVal, goodTreeB v = true →
    List.Pairwise NoPre (fchains v) := by
  refine strongInd (fun v ih => ?_)
  intro hwf
  cases v with
  | vObj fields =>
    obtain ⟨h1, h2⟩ := goodTreeB_vObj.mp hwf
    exact fchainsFields_nopre fields
      (fun kv hm hd hg => ih kv.2 (sizeOf_snd_lt_vObj hm) hg) h1 h2
  | vArr xs => simp [fchains]
  | vNull => simp [fchains]
  | vBool b => simp [fchains]
  | vNum n => simp [fchains]
  | vStr s => simp [fchains]

/-! ### The paths emitted by `getFilePaths`, as joined chains -/

theorem gfpFields_form : ∀ (fields : List (String × JSVal)) (base : String), base ≠ "" →
    (∀ kv ∈ fields, isDirLike kv.2 = true → ∀ b' : String, b' ≠ "" →
      getFilePaths kv.2 b' = (fchains kv.2).map (fun ch => b' ++ "/" ++ joinChain ch)) →
    gfpFields fields base = (fchainsFields fields).map (fun ch => base ++ "/" ++ joinChain ch) := by
  intro fields
  induction fields with
  | nil => intro base _ _; rfl
  | cons kv rest IH =>
    obtain ⟨k, w⟩ := kv
    intro base hbase H
    have hpj : pjoin base k = base ++ "/" ++ k := by simp [pjoin, hbase]
    by_cases hd : isDirLike w = true
    · rw [show gfpFields ((k, w) :: rest) base =
          getFilePaths w (pjoin base k) ++ gfpFields rest base from by
        simp [gfpFields, hd]]
      rw [show fchainsFields ((k, w) :: rest) =
          (fchains w).map (fun ch => k :: ch) ++ fchainsFields rest from by
        simp [fchainsFields, hd]]
      rw [List.map_append, List.map_map]
      rw [hpj, H (k, w) (List.mem_cons_self _ _) hd (base ++ "/" ++ k)
        (append_mid_ne_empty base "/" k (by decide))]
      rw [IH base hbase (fun kv hm => H kv (List.mem_cons_of_mem _ hm))]
      congr 1
      apply List.map_congr_left
      intro ch hch
      show base ++ "/" ++ k ++ "/" ++ joinChain ch = base ++ "/" ++ joinChain (k :: ch)
      rw [joinChain_cons k (fchains_ne_nil w ch hch)]
      simp [String.append_assoc]
    · have hd' : isDirLike w = false := by simpa using hd
      rw [show gfpFields ((k, w) :: rest) base =
          pjoin base k :: gfpFields rest base from by simp [gfpFields, hd']]
      rw [show fchainsFields ((k, w) :: rest) = [k] :: fchainsFields rest from by
        simp [fchainsFields, hd']]
      rw [List.map_cons, IH base hbase (fun kv hm => H kv (List.mem_cons_of_mem _ hm)), hpj]
      rfl

theorem getFilePaths_form : ∀ v : JSVal, isDirLike v = true →
    ∀ base : String, base ≠ "" →
    getFilePaths v base = (fchains v).map (fun ch => base ++ "/" ++ joinChain ch) := by
  refine strongInd (fun v ih => ?_)
  intro hd base hbase
  cases v with
  | vObj fields =>
    exact gfpFields_form fields base hbase
      (fun kv hm hd' b' hb' => ih kv.2 (sizeOf_snd_lt_vObj hm) hd' b' hb')
  | vArr xs => simp [isDirLike] at hd
  | vNull => simp [isDirLike] at hd
  | vBool b => simp [isDirLike] at hd
  | vNum n => simp [isDirLike] at hd
  | vStr s => simp [isDirLike] at hd

theorem gfpFields_root : ∀ fields : List (String × JSVal),
    (∀ kv ∈ fields, isDirLike kv.2 = true → kv.1 ≠ "") →
    gfpFields fields "" = (fchainsFields fields).map joinChain := by
  intro fields
  induction fields with
  | nil => intro _; rfl
  | cons kv rest IH =>
    obtain ⟨k, w⟩ := kv
    intro hkeys
    have hpj : pjoin "" k = k := by simp [pjoin]
    by_cases hd : isDirLike w = true
    · rw [show gfpFields ((k, w) :: rest) "" =
          getFilePaths w (pjoin "" k) ++ gfpFields rest "" from by
        simp [gfpFields, hd]]
      rw [show fchainsFields ((k, w) :: rest) =
          (fchains w).map (fun ch => k :: ch) ++ fchainsFields rest from by
        simp [fchainsFields, hd]]
      rw [List.map_append, List.map_map]
      rw [hpj, getFilePaths_form w hd k (hkeys (k, w) (List.mem_cons_self _ _) hd)]
      rw [IH (fun kv hm => hkeys kv (List.mem_cons_of_mem _ hm))]
      congr 1
      apply List.map_congr_left
      intro ch hch
      exact (joinChain_cons k (fchains_ne_nil w ch hch)).symm
    · have hd' : isDirLike w = false := by simpa using hd
      rw [show gfpFields ((k, w) :: rest) "" =
          pjoin "" k :: gfpFields rest "" from by simp [gfpFields, hd']]
      rw [show fchainsFields ((k, w) :: rest) = [k] :: fchainsFields rest from by
        simp [fchainsFields, hd']]
      rw [List.map_cons, IH (fun kv hm => hkeys kv (List.mem_cons_of_mem _ hm)), hpj]
      rfl

/-! ### The effect of one `insertParts` on the chain set -/

theorem entryChains_dir {k : String} {v : JSVal} (hd : isDirLike v = true) :
    entryChains (k, v) = (fchains v).map (fun ch => k :: ch) := by
  unfold entryChains
  rw [if_pos hd]

theorem entryChains_file {k : String} {v : JSVal} (hd : isDirLike v = false) :
    entryChains (k, v) = [[k]] := by
  unfold entryChains
  rw [if_neg (by simp [hd])]

theorem fchainsFields_append (l1 l2 : List (String × JSVal)) :
    fchainsFields (l1 ++ l2) = fchainsFields l1 ++ fchainsFields l2 := by
  rw [fchainsFields_eq_entry, fchainsFields_eq_entry, fchainsFields_eq_entry,
    List.flatMap_append]

theorem nodup_key_unique : ∀ {fields : List (String × JSVal)},
    nodupKeysB fields = true →
    ∀ {kv1 kv2 : String × JSVal}, kv1 ∈ fields → kv2 ∈ fields →
    kv1.1 = kv2.1 → kv1 = kv2 := by
  intro fields
  induction fields with
  | nil => intro _ kv1 kv2 h1; simp at h1
  | cons kv rest IH =>
    intro hnod kv1 kv2 h1 h2 hk
    obtain ⟨hdist, hnodrest⟩ := nodupKeysB_cons.mp hnod
    obtain ⟨k, v⟩ := kv
    rcases List.mem_cons.mp h1 with h1' | h1' <;> rcases List.mem_cons.mp h2 with h2' | h2'
    · rw [h1', h2']
    · exfalso
      exact hdist kv2 h2' (by rw [← hk, h1'])
    · exfalso
      exact hdist kv1 h1' (by rw [hk, h2'])
    · exact IH hnodrest h1' h2' hk

theorem nodupKeysB_append_fresh {fields : List (String × JSVal)} {k : String} {w : JSVal}
    (hnod : nodupKeysB fields = true) (hfresh : ∀ kv ∈ fields, kv.1 ≠ k) :
    nodupKeysB (fields ++ [(k, w)]) = true := by
  rw [nodupKeysB_iff] at hnod ⊢
  rw [List.map_append, List.nodup_append]
  refine ⟨hnod, by simp, ?_⟩
  intro a ha hb
  simp only [List.map_cons, List.map_nil, List.mem_singleton] at hb
  obtain ⟨kv, hm, he⟩ := List.mem_map.mp ha
  exact hfresh kv hm (by rw [he, hb])

theorem insertParts_vObj (c : JSVal) (fields : List (String × JSVal)) :
    ∀ ch : List String, ∃ g, insertParts c (vObj fields) ch = vObj g := by
  intro ch
  match ch with
  | [] => exact ⟨fields, rfl⟩
  | [k] => exact ⟨upsertFields fields k c, rfl⟩
  | k :: r :: rest => exact ⟨upsertFields fields k _, rfl⟩

theorem insert_step (c : JSVal) (hc : isDirLike c = false) :
    ∀ (ch : List String), ∀ (fields : List (String × JSVal)),
      ch ≠ [] → (∀ s ∈ ch, s ≠ "") →
      ShapeOk c (vObj fields) →
      (∀ a ∈ fchainsFields fields, NoPre a ch) →
      ShapeOk c (insertParts c (vObj fields) ch) ∧
      (∀ b, b ∈ fchains (insertParts c (vObj fields) ch) ↔
        b ∈ fchainsFields fields ∨ b = ch) := by
  intro ch
  induction ch with
  | nil => intro fields h; exact absurd rfl h
  | cons k rest IH =>
    intro fields _ hsegs hshape hpre
    obtain ⟨hnod, hsf⟩ := shapeOk_vObj.mp hshape
    have hfieldsIff := (shapeFields_iff c fields).mp hsf
    have hkne : k ≠ "" := hsegs k (List.mem_cons_self _ _)
    cases rest with
    | nil =>
      rcases hfind : fields.find? (fun kv => kv.1 == k) with _ | kv0
      · have hfresh : ∀ kv ∈ fields, kv.1 ≠ k := find?_eq_none_keys hfind
        have hup : upsertFields fields k c = fields ++ [(k, c)] :=
          upsertFields_of_fresh fields k c hfresh
        have hres : insertParts c (vObj fields) [k] = vObj (fields ++ [(k, c)]) := by
          show jsSet (vObj fields) k c = _
          rw [show jsSet (vObj fields) k c = vObj (upsertFields fields k c) from rfl, hup]
        rw [hres]
        constructor
        · rw [shapeOk_vObj]
          refine ⟨nodupKeysB_append_fresh hnod hfresh, ?_⟩
          rw [shapeFields_iff]
          intro kv hm
          rcases List.mem_append.mp hm with h | h
          · exact hfieldsIff kv h
          · rw [List.mem_singleton.mp h]
            exact ⟨hkne, Or.inr rfl⟩
        · intro b
          rw [fchains_vObj, fchainsFields_append]
          rw [show fchainsFields [(k, c)] = entryChains (k, c) ++ [] from rfl,
            List.append_nil, entryChains_file hc]
          rw [List.mem_append, List.mem_singleton]
      · exfalso
        obtain ⟨hkey, hmem⟩ := find?_eq_some_key hfind
        rcases (hfieldsIff kv0 hmem).2 with ⟨⟨g, hg⟩, _, hne⟩ | hcv
        · have hdir : isDirLike kv0.2 = true := by rw [hg]; rfl
          cases h0 : fchains kv0.2 with
          | nil => exact hne h0
          | cons ch0 tl =>
            have hmem' : (k :: ch0) ∈ fchainsFields fields := by
              refine mem_fchainsFields.mpr ⟨kv0, hmem, ?_⟩
              rw [entryChains_dir hdir, hkey]
              exact List.mem_map.mpr ⟨ch0, by rw [h0]; exact List.mem_cons_self _ _, rfl⟩
            exact (hpre (k :: ch0) hmem').2 ⟨ch0, rfl⟩
        · have hmem' : [k] ∈ fchainsFields fields := by
            refine mem_fchainsFields.mpr ⟨kv0, hmem, ?_⟩
            have hd0 : isDirLike kv0.2 = false := by rw [hcv]; exact hc
            rw [entryChains_file hd0, hkey]
            exact List.mem_singleton.mpr rfl
          exact (hpre [k] hmem').1 (ChainPre_self [k])
    | cons r rest' =>
      rcases hfind : fields.find? (fun kv => kv.1 == k) with _ | kv0
      · -- no entry named k yet: a fresh subtree is built from `{}`
        have hfresh : ∀ kv ∈ fields, kv.1 ≠ k := find?_eq_none_keys hfind
        have hchild : insertParts c (vObj fields) (k :: r :: rest') =
            jsSet (vObj fields) k (insertParts c (vObj []) (r :: rest')) := by
          show jsSet (vObj fields) k
              (insertParts c (match jsProp (vObj fields) k with
                | some v => if isObjectLike v then v else vObj []
                | none => vObj []) (r :: rest')) = _
          rw [show jsProp (vObj fields) k =
              (fields.find? (fun kv => kv.1 == k)).map (fun kv => kv.2) from rfl, hfind]
          rfl
        obtain ⟨hS1, hS2⟩ := IH [] (by simp)
          (fun s hs => hsegs s (List.mem_cons_of_mem _ hs))
          (shapeOk_vObj.mpr ⟨rfl, trivial⟩)
          (by intro a ha; simp [fchainsFields] at ha)
        obtain ⟨gS, hgS⟩ := insertParts_vObj c [] (r :: rest')
        have hSdir : isDirLike (insertParts c (vObj []) (r :: rest')) = true := by
          rw [hgS]; rfl
        have hSne : fchains (insertParts c (vObj []) (r :: rest')) ≠ [] := by
          intro h0
          have := (hS2 (r :: rest')).mpr (Or.inr rfl)
          rw [h0] at this
          simp at this
        have hup : upsertFields fields k (insertParts c (vObj []) (r :: rest')) =
            fields ++ [(k, insertParts c (vObj []) (r :: rest'))] :=
          upsertFields_of_fresh _ _ _ hfresh
        rw [hchild, show jsSet (vObj fields) k (insertParts c (vObj []) (r :: rest')) =
            vObj (upsertFields fields k (insertParts c (vObj []) (r :: rest'))) from rfl, hup]
        constructor
        · rw [shapeOk_vObj]
          refine ⟨nodupKeysB_append_fresh hnod hfresh, ?_⟩
          rw [shapeFields_iff]
          intro kv hm
          rcases List.mem_append.mp hm with h | h
          · exact hfieldsIff kv h
          · rw [List.mem_singleton.mp h]
            exact ⟨hkne, Or.inl ⟨⟨gS, hgS⟩, hS1, hSne⟩⟩
        · intro b
          rw [fchains_vObj, fchainsFields_append,
            show fchainsFields [(k, insertParts c (vObj []) (r :: rest'))] =
              entryChains (k, insertParts c (vObj []) (r :: rest')) ++ [] from rfl,
            List.append_nil, entryChains_dir hSdir, List.mem_append]
          constructor
          · rintro (h | h)
            · exact Or.inl h
            · obtain ⟨b', hb', hcons⟩ := List.mem_map.mp h
              have : b' = r :: rest' := by
                rcases (hS2 b').mp hb' with h' | h'
                · simp [fchainsFields] at h'
                · exact h'
              exact Or.inr (by rw [← hcons, this])
          · rintro (h | h)
            · exact Or.inl h
            · refine Or.inr (List.mem_map.mpr ⟨r :: rest', (hS2 _).mpr (Or.inr rfl), h.symm⟩)
      · obtain ⟨hkey, hmem⟩ := find?_eq_some_key hfind
        rcases (hfieldsIff kv0 hmem).2 with ⟨⟨g, hg⟩, hsh, _⟩ | hcv
        · -- descend into the existing directory kv0.2 = vObj g
          have hdir : isDirLike kv0.2 = true := by rw [hg]; rfl
          have hobj : isObjectLike kv0.2 = true := by rw [hg]; rfl
          have hchild : insertParts c (vObj fields) (k :: r :: rest') =
              jsSet (vObj fields) k (insertParts c kv0.2 (r :: rest')) := by
            show jsSet (vObj fields) k
                (insertParts c (match jsProp (vObj fields) k with
                  | some v => if isObjectLike v then v else vObj []
                  | none => vObj []) (r :: rest')) = _
            rw [show jsProp (vObj fields) k =
                (fields.find? (fun kv => kv.1 == k)).map (fun kv => kv.2) from rfl, hfind]
            rw [show ((some kv0).map (fun kv => kv.2) : Option JSVal) = some kv0.2 from rfl]
            rw [show (match (some kv0.2 : Option JSVal) with
                | some v => if isObjectLike v then v else vObj []
                | none => vObj []) = if isObjectLike kv0.2 then kv0.2 else vObj [] from rfl,
              if_pos hobj]
          have hmemk : ∀ a ∈ fchains kv0.2, (k :: a) ∈ fchainsFields fields := by
            intro a ha
            refine mem_fchainsFields.mpr ⟨kv0, hmem, ?_⟩
            rw [entryChains_dir hdir, hkey]
            exact List.mem_map.mpr ⟨a, ha, rfl⟩
          obtain ⟨hS1, hS2⟩ := by
            refine IH g (by simp) (fun s hs => hsegs s (List.mem_cons_of_mem _ hs))
              (hg ▸ hsh) ?_
            intro a ha
            have ha' : a ∈ fchains kv0.2 := by rw [hg]; exact ha
            have := hpre (k :: a) (hmemk a ha')
            exact NoPre_cons.mp this
          have hS1' : ShapeOk c (insertParts c kv0.2 (r :: rest')) := by rw [hg]; exact hS1
          have hS2' : ∀ b, b ∈ fchains (insertParts c kv0.2 (r :: rest')) ↔
              b ∈ fchains kv0.2 ∨ b = r :: rest' := by
            intro b
            rw [hg]
            exact hS2 b
          obtain ⟨gS, hgS⟩ : ∃ gS, insertParts c kv0.2 (r :: rest') = vObj gS := by
            rw [hg]; exact insertParts_vObj c g (r :: rest')
          have hSdir : isDirLike (insertParts c kv0.2 (r :: rest')) = true := by
            rw [hgS]; rfl
          have hSne : fchains (insertParts c kv0.2 (r :: rest')) ≠ [] := by
            intro h0
            have := (hS2' (r :: rest')).mpr (Or.inr rfl)
            rw [h0] at this
            simp at this
          rw [hchild, show jsSet (vObj fields) k (insertParts c kv0.2 (r :: rest')) =
              vObj (upsertFields fields k (insertParts c kv0.2 (r :: rest'))) from rfl]
          constructor
          · rw [shapeOk_vObj]
            refine ⟨nodupKeysB_upsert hnod, ?_⟩
            rw [shapeFields_iff]
            intro kv hm
            rcases (mem_upsertFields fields k _ hnod kv).mp hm with ⟨h1, _⟩ | h1
            · exact hfieldsIff kv h1
            · rw [h1]
              exact ⟨hkne, Or.inl ⟨⟨gS, hgS⟩, hS1', hSne⟩⟩
          · intro b
            rw [fchains_vObj]
            constructor
            · intro hb
              obtain ⟨kv', hm', hkv'⟩ := mem_fchainsFields.mp hb
              rcases (mem_upsertFields fields k _ hnod kv').mp hm' with ⟨h1, h2⟩ | h1
              · exact Or.inl (mem_fchainsFields.mpr ⟨kv', h1, hkv'⟩)
              · rw [h1, entryChains_dir hSdir] at hkv'
                obtain ⟨b', hb', hcons⟩ := List.mem_map.mp hkv'
                rcases (hS2' b').mp hb' with h' | h'
                · refine Or.inl (mem_fchainsFields.mpr ⟨kv0, hmem, ?_⟩)
                  rw [entryChains_dir hdir, hkey]
                  exact List.mem_map.mpr ⟨b', h', hcons⟩
                · exact Or.inr (by rw [← hcons, h'])
            · intro hb
              rcases hb with hb | hb
              · obtain ⟨kv', hm', hkv'⟩ := mem_fchainsFields.mp hb
                by_cases hk' : kv'.1 = k
                · -- kv' is the k-entry, i.e. kv0 itself
                  have : kv' = kv0 := nodup_key_unique hnod hm' hmem (by rw [hk', hkey])
                  subst this
                  refine mem_fchainsFields.mpr
                    ⟨(k, insertParts c kv'.2 (r :: rest')),
                     (mem_upsertFields fields k _ hnod _).mpr (Or.inr rfl), ?_⟩
                  rw [entryChains_dir hdir] at hkv'
                  obtain ⟨b', hb', hcons⟩ := List.mem_map.mp hkv'
                  rw [entryChains_dir hSdir]
                  refine List.mem_map.mpr ⟨b', (hS2' b').mpr (Or.inl hb'), ?_⟩
                  rw [← hkey]
                  exact hcons
                · exact mem_fchainsFields.mpr
                    ⟨kv', (mem_upsertFields fields k _ hnod kv').mpr (Or.inl ⟨hm', hk'⟩), hkv'⟩
              · refine mem_fchainsFields.mpr
                  ⟨(k, insertParts c kv0.2 (r :: rest')),
                   (mem_upsertFields fields k _ hnod _).mpr (Or.inr rfl), ?_⟩
                rw [entryChains_dir hSdir]
                exact List.mem_map.mpr ⟨r :: rest', (hS2' _).mpr (Or.inr rfl), hb.symm⟩
        · -- the k-entry is a file leaf: its chain [k] is a prefix of ch
          exfalso
          have hmem' : [k] ∈ fchainsFields fields := by
            refine mem_fchainsFields.mpr ⟨kv0, hmem, ?_⟩
            have hd0 : isDirLike kv0.2 = false := by rw [hcv]; exact hc
            rw [entryChains_file hd0, hkey]
            exact List.mem_singleton.mpr rfl
          exact (hpre [k] hmem').1 ⟨r :: rest', rfl⟩

/-! ### Folding `insertParts` over a list of chains -/

theorem fold_insert (c : JSVal) (hc : isDirLike c = false) :
    ∀ (L : List (List String)) (fields : List (String × JSVal)),
      (∀ ch ∈ L, ch ≠ []) →
      (∀ ch ∈ L, ∀ s ∈ ch, s ≠ "") →
      List.Pairwise NoPre L →
      ShapeOk c (vObj fields) →
      (∀ a ∈ fchainsFields fields, ∀ ch ∈ L, NoPre a ch) →
      ShapeOk c (L.foldl (insertParts c) (vObj fields)) ∧
      (∀ b, b ∈ fchains (L.foldl (insertParts c) (vObj fields)) ↔
        b ∈ fchainsFields fields ∨ b ∈ L) := by
  intro L
  induction L with
  | nil =>
    intro fields _ _ _ hshape _
    refine ⟨hshape, ?_⟩
    intro b
    rw [List.foldl_nil, fchains_vObj]
    simp
  | cons ch L' IH =>
    intro fields hne hsegs hpair hshape hpre
    obtain ⟨hS1, hS2⟩ := insert_step c hc ch fields (hne ch (List.mem_cons_self _ _))
      (hsegs ch (List.mem_cons_self _ _)) hshape
      (fun a ha => hpre a ha ch (List.mem_cons_self _ _))
    obtain ⟨g1, hg1⟩ := insertParts_vObj c fields ch
    rw [hg1] at hS1 hS2
    have hS2g : ∀ b, b ∈ fchainsFields g1 ↔ b ∈ fchainsFields fields ∨ b = ch := by
      intro b
      rw [← fchains_vObj]
      exact hS2 b
    have hfold : (ch :: L').foldl (insertParts c) (vObj fields) =
        L'.foldl (insertParts c) (vObj g1) := by
      rw [List.foldl_cons, hg1]
    rw [hfold]
    have hpair' := List.pairwise_cons.mp hpair
    have hside : ∀ a ∈ fchainsFields g1, ∀ ch' ∈ L', NoPre a ch' := by
      intro a ha ch' hch'
      rcases (hS2g a).mp ha with h' | h'
      · exact hpre a h' ch' (List.mem_cons_of_mem _ hch')
      · rw [h']
        exact hpair'.1 ch' hch'
    obtain ⟨hT1, hT2⟩ := IH g1 (fun a hm => hne a (List.mem_cons_of_mem _ hm))
      (fun a hm => hsegs a (List.mem_cons_of_mem _ hm)) hpair'.2 hS1 hside
    refine ⟨hT1, ?_⟩
    intro b
    rw [hT2 b]
    constructor
    · rintro (h | h)
      · rcases (hS2g b).mp h with h' | h'
        · exact Or.inl h'
        · exact Or.inr (h' ▸ List.mem_cons_self _ _)
      · exact Or.inr (List.mem_cons_of_mem _ h)
    · rintro (h | h)
      · exact Or.inl ((hS2g b).mpr (Or.inl h))
      · rcases List.mem_cons.mp h with h' | h'
        · exact Or.inl ((hS2g b).mpr (Or.inr h'))
        · exact Or.inr h'

/-! ### Bridging `createTreeFromPaths` on joined chains to the fold -/

theorem joinChain_ne_empty : ∀ ch : List String, ch ≠ [] → (∀ s ∈ ch, s ≠ "") →
    joinChain ch ≠ "" := by
  intro ch hne hgood
  cases ch with
  | nil => exact absurd rfl hne
  | cons s rest =>
    cases rest with
    | nil => exact hgood s (List.mem_cons_self _ _)
    | cons r rest' =>
      rw [joinChain_cons s (by simp)]
      exact append_mid_ne_empty s "/" (joinChain (r :: rest')) (by decide)

theorem createTree_join (c : JSVal) : ∀ (L : List (List String)),
    (∀ ch ∈ L, ch ≠ []) →
    (∀ ch ∈ L, ∀ s ∈ ch, s ≠ "" ∧ hasSlash s = false) →
    createTreeFromPaths (L.map joinChain) c = L.foldl (insertParts c) (vObj []) := by
  intro L hne hgood
  unfold createTreeFromPaths
  rw [List.foldl_map]
  apply List.foldl_ext
  intro t ch hch
  show addPath t (joinChain ch) c = insertParts c t ch
  unfold addPath
  have hjne : joinChain ch ≠ "" :=
    joinChain_ne_empty ch (hne ch hch) (fun s hs => (hgood ch hch s hs).1)
  rw [if_neg (by simpa using hjne), parseParts_joinChain ch (hne ch hch) (hgood ch hch)]

theorem goodFields_keys : ∀ fields : List (String × JSVal),
    goodFieldsB fields = true → ∀ kv ∈ fields, kv.1 ≠ "" := by
  intro fields
  induction fields with
  | nil => intro _ kv h; simp at h
  | cons kv0 rest IH =>
    intro hg kv hm
    obtain ⟨k, v⟩ := kv0
    obtain ⟨⟨hk, _, _⟩, hrest⟩ := goodFieldsB_cons.mp hg
    rcases List.mem_cons.mp hm with h | h
    · rw [h]
      exact hk
    · exact IH hrest kv h

theorem shapeOk_obj {c v : JSVal} (h : ShapeOk c v) : ∃ g, v = vObj g := by
  cases v with
  | vObj g => exact ⟨g, rfl⟩
  | vNull => simp [ShapeOk] at h
  | vBool b => simp [ShapeOk] at h
  | vNum n => simp [ShapeOk] at h
  | vStr s => simp [ShapeOk] at h
  | vArr xs => simp [ShapeOk] at h

/-- C6 counterexample: the round-trip is not set-preserving for every tree.
For `t = {"": 0}` the only file path is the empty string `""` (the empty key
joined at the root), but `createTreeFromPaths` skips the falsy path `""`
(`if (!path …) return`), so the rebuilt tree is `{}` and the path is lost. -/
theorem claim6_counterexample :
    "" ∈ getFilePaths (vObj [("", vNum 0)]) "" ∧
    "" ∉ getFilePaths
        (createTreeFromPaths (getFilePaths (vObj [("", vNum 0)]) "") (vStr "x")) "" := by
  decide

/-- C6 (corrected): for every object tree `t` whose keys along directory
paths are nonempty, slash-free, and siblingwise distinct (`goodTreeB`), and
every non-directory default content `c`,
`createTreeFromPaths (getFilePaths t '') c` has exactly the same set of file
paths as `t`: membership in the two path lists coincides. -/
theorem claim6_round_trip (fields : List (String × JSVal)) (c : JSVal)
    (hc : isDirLike c = false) (hwf : goodTreeB (vObj fields) = true) :
    ∀ p, p ∈ getFilePaths (createTreeFromPaths (getFilePaths (vObj fields) "") c) "" ↔
      p ∈ getFilePaths (vObj fields) "" := by
  obtain ⟨hnod, hgf⟩ := goodTreeB_vObj.mp hwf
  have hkeys : ∀ kv ∈ fields, isDirLike kv.2 = true → kv.1 ≠ "" :=
    fun kv hm _ => goodFields_keys fields hgf kv hm
  have hform : getFilePaths (vObj fields) "" = (fchainsFields fields).map joinChain :=
    gfpFields_root fields hkeys
  have hne : ∀ ch ∈ fchainsFields fields, ch ≠ [] := fchainsFields_ne_nil fields
  have hgood : ∀ ch ∈ fchainsFields fields, ∀ s ∈ ch, s ≠ "" ∧ hasSlash s = false :=
    fun ch hch => fchains_good (vObj fields) hwf ch hch
  have hpair : List.Pairwise NoPre (fchainsFields fields) := by
    have := fchains_nopre (vObj fields) hwf
    rwa [fchains_vObj] at this
  have hbridge : createTreeFromPaths (getFilePaths (vObj fields) "") c =
      (fchainsFields fields).foldl (insertParts c) (vObj []) := by
    rw [hform]
    exact createTree_join c (fchainsFields fields) hne hgood
  obtain ⟨hT1, hT2⟩ := fold_insert c hc (fchainsFields fields) [] hne
    (fun ch hch s hs => (hgood ch hch s hs).1) hpair
    (shapeOk_vObj.mpr ⟨rfl, trivial⟩) (by intro a ha; simp [fchainsFields] at ha)
  obtain ⟨g, hgT⟩ := shapeOk_obj hT1
  rw [hbridge, hgT]
  obtain ⟨hnodg, hsfg⟩ := shapeOk_vObj.mp (hgT ▸ hT1)
  have hkeysg : ∀ kv ∈ g, isDirLike kv.2 = true → kv.1 ≠ "" :=
    fun kv hm _ => ((shapeFields_iff c g).mp hsfg kv hm).1
  have hchg : ∀ b, b ∈ fchainsFields g ↔ b ∈ fchainsFields fields := by
    intro b
    have h2 := hT2 b
    rw [hgT, fchains_vObj] at h2
    rw [h2]
    constructor
    · rintro (h | h)
      · simp [fchainsFields] at h
      · exact h
    · exact Or.inr
  intro p
  rw [show getFilePaths (vObj g) "" = (fchainsFields g).map joinChain from
      gfpFields_root g hkeysg,
    show getFilePaths (vObj fields) "" = (fchainsFields fields).map joinChain from hform]
  constructor
  · intro hp
    obtain ⟨b, hb, hbp⟩ := List.mem_map.mp hp
    exact List.mem_map.mpr ⟨b, (hchg b).mp hb, hbp⟩
  · intro hp
    obtain ⟨b, hb, hbp⟩ := List.mem_map.mp hp
    exact List.mem_map.mpr ⟨b, (hchg b).mpr hb, hbp⟩

/-- C6 witness: the corrected round-trip applied to the concrete tree
`{"a": "1", "d": {"b": "2"}}` at the path `"a"`. -/
theorem claim6_witness :
    "a" ∈ getFilePaths (createTreeFromPaths
        (getFilePaths (vObj [("a", vStr "1"), ("d", vObj [("b", vStr "2")])]) "")
        (vStr "x")) "" ↔
      "a" ∈ getFilePaths (vObj [("a", vStr "1"), ("d", vObj [("b", vStr "2")])]) "" :=
  claim6_round_trip [("a", vStr "1"), ("d", vObj [("b", vStr "2")])] (vStr "x")
    (by decide) (by decide) "a"

end JsonZip
